import Mathlib

/-!
Shallow embedding of the color-reduction core of the blender-4color-bambu
repository (reduce_color_png.py, reduce_color_png_blender.py,
export_4color_3mf.py), together with theorems settling the frozen claims
about its specification.

Conventions of the embedding:
* Python floats are modelled as exact rationals (ℚ).  Every concrete input
  used in a counterexample or witness keeps all intermediate values dyadic
  with small exponents, where IEEE-754 double arithmetic is exact, so the
  rational model agrees with the source bit for bit on those inputs.
* Python `round` rounds half to even; it is modelled by `roundPy`.
* 8-bit color triples are `ℤ × ℤ × ℤ`, float triples are `ℚ × ℚ × ℚ`.
* A Python `IndexError` is modelled by `Option` (`none` = the call raises);
  list reads that are provably in range in the source's own calling context
  are modelled with `List.getD`, and the theorems carry the corresponding
  range hypotheses.
-/

namespace FourColor

attribute [local semireducible] Rat.mul Rat.add Rat.sub Rat.inv

/-- Integer RGB triple (channels 0..255 in the source). -/
abbrev Z3 := ℤ × ℤ × ℤ

/-- Rational RGB triple (channels 0..1 in the source). -/
abbrev Q3 := ℚ × ℚ × ℚ

/-- Rational RGBA quadruple. -/
abbrev Q4 := ℚ × ℚ × ℚ × ℚ

/-- Integer RGBA quadruple. -/
abbrev Z4 := ℤ × ℤ × ℤ × ℤ

/-- Python `round`: round half to even (banker's rounding). -/
def roundPy (q : ℚ) : ℤ :=
  let f := ⌊q⌋
  let r := q - f
  if r < 1/2 then f
  else if 1/2 < r then f + 1
  else if f % 2 = 0 then f else f + 1

/-- Model of `max(0, min(255, z))`. -/
def clamp255 (z : ℤ) : ℤ := max 0 (min 255 z)

/-- Componentwise sum of two rational triples. -/
def add3 (a b : Q3) : Q3 := (a.1 + b.1, a.2.1 + b.2.1, a.2.2 + b.2.2)

/-- Squared integer RGB distance `(r-pr)**2 + (g-pg)**2 + (b-pb)**2`. -/
def sqdZ (r g b : ℤ) (p : Z3) : ℤ :=
  (r - p.1) ^ 2 + (g - p.2.1) ^ 2 + (b - p.2.2) ^ 2

/-- Scan loop of `nearest_palette_index` (`for i in range(1, len(palette))`,
keeping the strictly smaller squared distance). -/
def nearestAux (r g b : ℤ) : ℕ → ℤ → ℕ → List Z3 → ℕ
  | best_i, _, _, [] => best_i
  | best_i, best_d, i, p :: rest =>
      let d := sqdZ r g b p
      if d < best_d then nearestAux r g b i d (i + 1) rest
      else nearestAux r g b best_i best_d (i + 1) rest

/-- `nearest_palette_index` from reduce_color_png.py (also verbatim in
reduce_color_png_blender.py).  The source unconditionally reads
`palette[0]`, so the empty palette raises `IndexError`: modelled by
`none`. -/
def nearest_palette_index (r g b : ℤ) (palette : List Z3) : Option ℕ :=
  match palette with
  | [] => none
  | p0 :: rest => some (nearestAux r g b 0 (sqdZ r g b p0) 1 rest)

/-- The scan returns either its running best index or the position of some
scanned entry. -/
theorem nearestAux_lt (r g b : ℤ) :
    ∀ (rest : List Z3) (best_i : ℕ) (best_d : ℤ) (i n : ℕ),
      best_i < n → i + rest.length ≤ n →
      nearestAux r g b best_i best_d i rest < n := by
  intro rest
  induction rest with
  | nil => intro best_i best_d i n hb _; simpa [nearestAux] using hb
  | cons p tl ih =>
      intro best_i best_d i n hb hlen
      simp only [List.length_cons] at hlen
      by_cases hd : sqdZ r g b p < best_d
      · simp only [nearestAux, hd, if_true]
        exact ih i (sqdZ r g b p) (i + 1) n (by omega) (by omega)
      · simp only [nearestAux, hd, if_false]
        exact ih best_i best_d (i + 1) n hb (by omega)

/-- Helper: on a nonempty palette the nearest-index scan lands inside the
palette. -/
theorem nearest_palette_index_range (r g b : ℤ) (p0 : Z3) (rest : List Z3) :
    (nearest_palette_index r g b (p0 :: rest)).getD 0 < (p0 :: rest).length := by
  simp only [nearest_palette_index, Option.getD_some, List.length_cons]
  exact nearestAux_lt r g b rest 0 (sqdZ r g b p0) 1 (rest.length + 1)
    (by omega) (by omega)

/-- C10: `nearest_palette_index` is total exactly on nonempty palettes: it
returns `none` on the empty palette (the source reads `palette[0]` before
scanning, an `IndexError`), and on a nonempty palette it returns an index
in `[0, len(palette))`. -/
theorem C10_nearest_palette_index_total (r g b : ℤ) (palette : List Z3)
    (h : palette ≠ []) :
    nearest_palette_index r g b [] = none ∧
    ∃ i, nearest_palette_index r g b palette = some i ∧ i < palette.length := by
  refine ⟨rfl, ?_⟩
  match palette, h with
  | p0 :: rest, _ =>
      refine ⟨nearestAux r g b 0 (sqdZ r g b p0) 1 rest, rfl, ?_⟩
      simpa using nearest_palette_index_range r g b p0 rest

/-- Witness for C10 at a concrete palette. -/
theorem C10_witness :
    ([((0 : ℤ), (0 : ℤ), (0 : ℤ)), ((10 : ℤ), (20 : ℤ), (30 : ℤ))] ≠ ([] : List Z3)) ∧
    (nearest_palette_index 9 19 29 [] = none ∧
      ∃ i, nearest_palette_index 9 19 29
          [((0 : ℤ), (0 : ℤ), (0 : ℤ)), ((10 : ℤ), (20 : ℤ), (30 : ℤ))] = some i ∧
        i < ([((0 : ℤ), (0 : ℤ), (0 : ℤ)), ((10 : ℤ), (20 : ℤ), (30 : ℤ))] : List Z3).length) :=
  ⟨by decide, C10_nearest_palette_index_total 9 19 29 _ (by decide)⟩

/-! ## Floyd–Steinberg dither (reduce_color_png.py `floyd_steinberg_dither`,
identical code in reduce_color_png_blender.py) -/

/-- Working state of the dither loop: the float error accumulator `f` and
the output grid `out`, both indexed by `(y, x)`. -/
structure FSState where
  acc : ℕ × ℕ → Q3
  out : ℕ × ℕ → Z3

/-- Add an error contribution into the accumulator at one position
(`f[yy][xx][c] += e_c`). -/
def bump (acc : ℕ × ℕ → Q3) (pos : ℕ × ℕ) (e : Q3) : ℕ × ℕ → Q3 :=
  fun p => if p = pos then add3 (acc p) e else acc p

/-- Body of the dither's inner loop for pixel `(y, x)`: round and clamp the
accumulator, pick the nearest palette entry, emit it, compute the error
from the RAW accumulator (`er = f[y][x][0] - pr`, the unclamped float) and
distribute it with the 7/16, 5/16, 3/16, 1/16 weights to in-bounds
neighbors. -/
def fsPixel (width height : ℕ) (palette : List Z3) (st : FSState)
    (y x : ℕ) : FSState :=
  let a := st.acc (y, x)
  let r := clamp255 (roundPy a.1)
  let g := clamp255 (roundPy a.2.1)
  let b := clamp255 (roundPy a.2.2)
  let idx := (nearest_palette_index r g b palette).getD 0
  let p := palette.getD idx (0, 0, 0)
  let er := a.1 - (p.1 : ℚ)
  let eg := a.2.1 - (p.2.1 : ℚ)
  let eb := a.2.2 - (p.2.2 : ℚ)
  let acc1 := if x + 1 < width then
      bump st.acc (y, x + 1) (er * 7/16, eg * 7/16, eb * 7/16) else st.acc
  let acc2 := if y + 1 < height then
      bump acc1 (y + 1, x) (er * 5/16, eg * 5/16, eb * 5/16) else acc1
  let acc3 := if y + 1 < height ∧ 1 ≤ x then
      bump acc2 (y + 1, x - 1) (er * 3/16, eg * 3/16, eb * 3/16) else acc2
  let acc4 := if y + 1 < height ∧ x + 1 < width then
      bump acc3 (y + 1, x + 1) (er * 1/16, eg * 1/16, eb * 1/16) else acc3
  { acc := acc4, out := fun pos => if pos = (y, x) then p else st.out pos }

/-- Initial dither state: the accumulator holds the input pixel colors as
floats, the output grid is zero-initialized (`out = [[(0,0,0)] * w] * h`). -/
def fsInit (img : List (List Z3)) : FSState :=
  { acc := fun pos =>
      let c := (img.getD pos.1 []).getD pos.2 (0, 0, 0)
      ((c.1 : ℚ), (c.2.1 : ℚ), (c.2.2 : ℚ)),
    out := fun _ => (0, 0, 0) }

/-- The dither's nested row-major loop. -/
def fsRun (img : List (List Z3)) (palette : List Z3) (width height : ℕ) :
    FSState :=
  (List.range height).foldl
    (fun st y => (List.range width).foldl
      (fun st x => fsPixel width height palette st y x) st)
    (fsInit img)

/-- `floyd_steinberg_dither` from the source: run the row-major
error-diffusion loop and return the output grid as a `height × width`
list of palette colors. -/
def floyd_steinberg_dither (img : List (List Z3)) (palette : List Z3)
    (width height : ℕ) : List (List Z3) :=
  let st := fsRun img palette width height
  (List.range height).map (fun y => (List.range width).map (fun x => st.out (y, x)))

/-- Dither pixel step parametrized by how the propagated error is computed
from the raw accumulator `a`, the rounded-and-clamped value `c`, and the
chosen palette entry `p`. -/
def fsPixelWith (errFn : Q3 → Z3 → Z3 → Q3) (width height : ℕ)
    (palette : List Z3) (st : FSState) (y x : ℕ) : FSState :=
  let a := st.acc (y, x)
  let r := clamp255 (roundPy a.1)
  let g := clamp255 (roundPy a.2.1)
  let b := clamp255 (roundPy a.2.2)
  let idx := (nearest_palette_index r g b palette).getD 0
  let p := palette.getD idx (0, 0, 0)
  let e := errFn a (r, g, b) p
  let er := e.1
  let eg := e.2.1
  let eb := e.2.2
  let acc1 := if x + 1 < width then
      bump st.acc (y, x + 1) (er * 7/16, eg * 7/16, eb * 7/16) else st.acc
  let acc2 := if y + 1 < height then
      bump acc1 (y + 1, x) (er * 5/16, eg * 5/16, eb * 5/16) else acc1
  let acc3 := if y + 1 < height ∧ 1 ≤ x then
      bump acc2 (y + 1, x - 1) (er * 3/16, eg * 3/16, eb * 3/16) else acc2
  let acc4 := if y + 1 < height ∧ x + 1 < width then
      bump acc3 (y + 1, x + 1) (er * 1/16, eg * 1/16, eb * 1/16) else acc3
  { acc := acc4, out := fun pos => if pos = (y, x) then p else st.out pos }

/-- Dither parametrized by the error rule. -/
def fsDitherWith (errFn : Q3 → Z3 → Z3 → Q3) (img : List (List Z3))
    (palette : List Z3) (width height : ℕ) : List (List Z3) :=
  let st := (List.range height).foldl
    (fun st y => (List.range width).foldl
      (fun st x => fsPixelWith errFn width height palette st y x) st)
    (fsInit img)
  (List.range height).map (fun y => (List.range width).map (fun x => st.out (y, x)))

/-- Error rule of the source code: raw accumulator minus chosen entry. -/
def rawErrRule (a : Q3) (_c : Z3) (p : Z3) : Q3 :=
  (a.1 - (p.1 : ℚ), a.2.1 - (p.2.1 : ℚ), a.2.2 - (p.2.2 : ℚ))

/-- Error rule asserted by the claim: rounded-and-clamped accumulator minus
chosen entry. -/
def clampedErrRule (_a : Q3) (c : Z3) (p : Z3) : Q3 :=
  (((c.1 - p.1 : ℤ) : ℚ), ((c.2.1 - p.2.1 : ℤ) : ℚ), ((c.2.2 - p.2.2 : ℤ) : ℚ))

/-- C3 counterexample: the dither as implemented (error from the RAW
accumulator) and the dither as the claim describes it (error from the
rounded-and-clamped accumulator) produce different outputs on the 1×3 row
(2,2,2),(2,2,2),(0,0,0) with palette [(0,0,0),(1,1,1)].  At pixel (0,1)
the accumulator is 2+7/16 = 2.4375, the chosen entry is (1,1,1), the code
propagates 1.4375·7/16 ≈ 0.629 (so pixel (0,2) rounds to 1 and emits
(1,1,1)), while the claimed rule would propagate 1·7/16 = 0.4375 (pixel
(0,2) would round to 0 and emit (0,0,0)).  If the claim held at every
pixel, the two runs would be identical. -/
theorem C3_counterexample :
    floyd_steinberg_dither [[(2,2,2),(2,2,2),(0,0,0)]] [(0,0,0),(1,1,1)] 3 1
      ≠ fsDitherWith clampedErrRule
          [[(2,2,2),(2,2,2),(0,0,0)]] [(0,0,0),(1,1,1)] 3 1 := by
  decide

/-- C3 (amended): the per-channel quantization error the dither propagates
equals the RAW accumulator value of the pixel minus the chosen palette
entry's channel value — the error is computed from the unrounded,
unclamped accumulator (`er = f[y][x][0] - pr`), not from the clamped one.
Stated as: the source dither coincides with the error-rule-parametric
dither instantiated with the raw-accumulator error rule, on all inputs. -/
theorem C3_error_from_raw_accumulator (img : List (List Z3))
    (palette : List Z3) (width height : ℕ) :
    floyd_steinberg_dither img palette width height
      = fsDitherWith rawErrRule img palette width height := rfl

/-- Direct nearest-palette mapping (the `use_dither=False` branch of
`reduce_color_png`, lines 176–183): every pixel is replaced by its nearest
palette entry, no error propagation. -/
def direct_nearest_map (rgb2d : List (List Z3)) (palette : List Z3)
    (width height : ℕ) : List (List Z3) :=
  (List.range height).map (fun y => (List.range width).map (fun x =>
    let c := (rgb2d.getD y []).getD x (0, 0, 0)
    palette.getD ((nearest_palette_index c.1 c.2.1 c.2.2 palette).getD 0) (0, 0, 0)))

/-- On a nonempty palette, `palette.getD` at the nearest index is a palette
member. -/
theorem getD_nearest_mem (r g b : ℤ) (palette : List Z3) (hpal : palette ≠ []) :
    palette.getD ((nearest_palette_index r g b palette).getD 0) (0, 0, 0)
      ∈ palette := by
  match palette, hpal with
  | p0 :: rest, _ =>
      have h := nearest_palette_index_range r g b p0 rest
      rw [List.getD_eq_getElem _ _ h]
      exact List.getElem_mem h

/-- Processing a pixel writes a palette member at its own output cell. -/
theorem fsPixel_out_self (width height : ℕ) (palette : List Z3)
    (hpal : palette ≠ []) (st : FSState) (y x : ℕ) :
    (fsPixel width height palette st y x).out (y, x) ∈ palette := by
  simp only [fsPixel, if_pos rfl]
  exact getD_nearest_mem _ _ _ palette hpal

/-- Processing a pixel leaves every other output cell unchanged. -/
theorem fsPixel_out_other (width height : ℕ) (palette : List Z3)
    (st : FSState) (y x : ℕ) (pos : ℕ × ℕ) (h : pos ≠ (y, x)) :
    (fsPixel width height palette st y x).out pos = st.out pos := by
  simp only [fsPixel, if_neg h]

/-- Folding the pixel step over positions not containing `pos` leaves the
output at `pos` unchanged. -/
theorem fold_out_frame (width height : ℕ) (palette : List Z3) :
    ∀ (L : List (ℕ × ℕ)) (st : FSState) (pos : ℕ × ℕ), pos ∉ L →
      (L.foldl (fun st p => fsPixel width height palette st p.1 p.2) st).out pos
        = st.out pos := by
  intro L
  induction L with
  | nil => intro st pos _; rfl
  | cons q T ih =>
      intro st pos hpos
      simp only [List.mem_cons, not_or] at hpos
      rw [List.foldl_cons, ih _ _ hpos.2]
      exact fsPixel_out_other _ _ _ _ _ _ _ hpos.1

/-- After folding the pixel step over a list of positions, every processed
position holds a palette member. -/
theorem fold_out_mem (width height : ℕ) (palette : List Z3)
    (hpal : palette ≠ []) :
    ∀ (L : List (ℕ × ℕ)) (st : FSState) (pos : ℕ × ℕ), pos ∈ L →
      (L.foldl (fun st p => fsPixel width height palette st p.1 p.2) st).out pos
        ∈ palette := by
  intro L
  induction L with
  | nil => intro st pos h; exact absurd h (List.not_mem_nil pos)
  | cons q T ih =>
      intro st pos hpos
      rw [List.foldl_cons]
      by_cases hT : pos ∈ T
      · exact ih _ _ hT
      · have hq : pos = q := by
          rcases List.mem_cons.mp hpos with h | h
          · exact h
          · exact absurd h hT
        rw [fold_out_frame _ _ _ _ _ _ hT, hq]
        exact fsPixel_out_self _ _ _ hpal _ q.1 q.2

/-- The nested row-major loop is the fold over the flattened row-major
position list. -/
theorem foldl_nested {σ : Type} (f : σ → ℕ → ℕ → σ) :
    ∀ (ys : List ℕ) (xs : List ℕ) (init : σ),
      ys.foldl (fun st y => xs.foldl (fun st x => f st y x) st) init
        = ((ys.flatMap (fun y => xs.map (fun x => (y, x)))).foldl
            (fun st p => f st p.1 p.2) init) := by
  intro ys
  induction ys with
  | nil => intro xs init; rfl
  | cons y ys ih =>
      intro xs init
      rw [List.foldl_cons, List.flatMap_cons, List.foldl_append, List.foldl_map, ih]

/-- Membership in the row-major position list. -/
theorem mem_rowMajor (width height y x : ℕ) (hy : y < height) (hx : x < width) :
    (y, x) ∈ (List.range height).flatMap
      (fun y => (List.range width).map (fun x => (y, x))) := by
  refine List.mem_flatMap.mpr ⟨y, List.mem_range.mpr hy, ?_⟩
  exact List.mem_map.mpr ⟨x, List.mem_range.mpr hx, rfl⟩

/-- The final dither state holds a palette member at every in-bounds
position. -/
theorem fsRun_out_mem (img : List (List Z3)) (palette : List Z3)
    (width height : ℕ) (hpal : palette ≠ []) (y x : ℕ)
    (hy : y < height) (hx : x < width) :
    (fsRun img palette width height).out (y, x) ∈ palette := by
  rw [fsRun, foldl_nested (fun st y x => fsPixel width height palette st y x)]
  exact fold_out_mem width height palette hpal _ _ _
    (mem_rowMajor width height y x hy hx)

/-- Reading a `height × width` grid built from `List.range` maps. -/
theorem grid_getD {α : Type} (f : ℕ → ℕ → α) (width height y x : ℕ)
    (hy : y < height) (hx : x < width) (d : α) :
    (((List.range height).map (fun y => (List.range width).map
        (fun x => f y x))).getD y []).getD x d = f y x := by
  have h1 : ((List.range height).map (fun y => (List.range width).map
      (fun x => f y x))).getD y [] = (List.range width).map (fun x => f y x) := by
    rw [List.getD_eq_getElem _ _ (by simpa using hy)]
    simp
  rw [h1, List.getD_eq_getElem _ _ (by simpa using hx)]
  simp

/-- C2: for a nonempty palette, both the Floyd–Steinberg dither and the
no-dither direct nearest mapping output a grid of the input's dimensions
whose every pixel is exactly (value for value) an entry of the supplied
palette. -/
theorem C2_output_pixels_in_palette (img : List (List Z3)) (palette : List Z3)
    (width height : ℕ) (hpal : palette ≠ []) (himg : img.length = height) :
    ((floyd_steinberg_dither img palette width height).length = img.length ∧
      ∀ row ∈ floyd_steinberg_dither img palette width height,
        row.length = width) ∧
    ((direct_nearest_map img palette width height).length = img.length ∧
      ∀ row ∈ direct_nearest_map img palette width height,
        row.length = width) ∧
    (∀ y < height, ∀ x < width,
      ((floyd_steinberg_dither img palette width height).getD y []).getD
        x (0, 0, 0) ∈ palette) ∧
    (∀ y < height, ∀ x < width,
      ((direct_nearest_map img palette width height).getD y []).getD
        x (0, 0, 0) ∈ palette) := by
  refine ⟨⟨?_, ?_⟩, ⟨?_, ?_⟩, ?_, ?_⟩
  · simp [floyd_steinberg_dither, himg]
  · intro row hrow
    simp only [floyd_steinberg_dither, List.mem_map] at hrow
    obtain ⟨y, _, hy⟩ := hrow
    simp [← hy]
  · simp [direct_nearest_map, himg]
  · intro row hrow
    simp only [direct_nearest_map, List.mem_map] at hrow
    obtain ⟨y, _, hy⟩ := hrow
    simp [← hy]
  · intro y hy x hx
    rw [floyd_steinberg_dither]
    rw [grid_getD (fun y x => (fsRun img palette width height).out (y, x))
      width height y x hy hx]
    exact fsRun_out_mem img palette width height hpal y x hy hx
  · intro y hy x hx
    rw [direct_nearest_map]
    rw [grid_getD _ width height y x hy hx]
    exact getD_nearest_mem _ _ _ palette hpal

/-! ## K-means (reduce_color_png.py `kmeans_palette`, the same logic in
reduce_color_png_blender.py, and export_4color_3mf.py
`quantize_colors_kmeans`) -/

/-- Squared Euclidean distance between two rational RGB triples. -/
def sqdQ (a b : Q3) : ℚ :=
  (a.1 - b.1) ^ 2 + (a.2.1 - b.2.1) ^ 2 + (a.2.2 - b.2.2) ^ 2

theorem sqdQ_nonneg (a b : Q3) : 0 ≤ sqdQ a b := by
  unfold sqdQ; positivity

/-- The `dist` helper of the source k-means:
`sum((x - y) ** 2 for x, y in zip(a, b)) ** 0.5` — the square root of the
squared distance (idealized over ℝ). -/
noncomputable def distPy (a b : Q3) : ℝ := Real.sqrt ((sqdQ a b : ℚ) : ℝ)

/-- The nearest-centroid scan of the source (`for j in range(1, k)`,
keeping a strictly smaller `dist`), operating on real square-root
distances. -/
noncomputable def assignScanR (c : Q3) : ℕ → ℝ → ℕ → List Q3 → ℕ
  | best, _, _, [] => best
  | best, best_d, j, cj :: tl =>
      if distPy c cj < best_d then assignScanR c j (distPy c cj) (j + 1) tl
      else assignScanR c best best_d (j + 1) tl

/-- Cluster index assigned to sample `c` by the source's scan (the body of
the assignment loop in `kmeans_palette` and `quantize_colors_kmeans`). -/
noncomputable def kmeansAssignIdx (c : Q3) (centroids : List Q3) : ℕ :=
  match centroids with
  | [] => 0
  | c0 :: rest => assignScanR c 0 (distPy c c0) 1 rest

/-- The same scan on squared rational distances (the specification's
squared-distance argmin, ties to the lowest index). -/
def assignScanQ (c : Q3) : ℕ → ℚ → ℕ → List Q3 → ℕ
  | best, _, _, [] => best
  | best, best_d, j, cj :: tl =>
      if sqdQ c cj < best_d then assignScanQ c j (sqdQ c cj) (j + 1) tl
      else assignScanQ c best best_d (j + 1) tl

/-- Squared-distance argmin index (specification side). -/
def sqAssignIdx (c : Q3) (centroids : List Q3) : ℕ :=
  match centroids with
  | [] => 0
  | c0 :: rest => assignScanQ c 0 (sqdQ c c0) 1 rest

/-- Sum/count accumulation pass of the centroid update
(`new_c[j][t] += c[t]; counts[j] += 1` over `enumerate(pts)`), on an
already-zipped list of (sample, assigned index) pairs. -/
def zipSumsCounts (pzs : List (Q3 × ℕ)) (k : ℕ) : List Q3 × List ℕ :=
  pzs.foldl (fun sc pj =>
      (sc.1.set pj.2 (add3 (sc.1.getD pj.2 (0, 0, 0)) pj.1),
       sc.2.set pj.2 (sc.2.getD pj.2 0 + 1)))
    (List.replicate k (0, 0, 0), List.replicate k 0)

/-- Sum/count accumulation exactly as the source walks it: over
`enumerate(pts)` with `j = assignments[i]`. -/
def sumsCounts (pts : List Q3) (assignments : List ℕ) (k : ℕ) :
    List Q3 × List ℕ :=
  pts.enum.foldl (fun sc ic =>
      let j := assignments.getD ic.1 0
      (sc.1.set j (add3 (sc.1.getD j (0, 0, 0)) ic.2),
       sc.2.set j (sc.2.getD j 0 + 1)))
    (List.replicate k (0, 0, 0), List.replicate k 0)

/-- Centroid update step of the source k-means: clusters with a positive
count get the componentwise sum divided by the count; the others keep
their previous centroid. -/
def update_centroids (pts : List Q3) (assignments : List ℕ)
    (centroids : List Q3) (k : ℕ) : List Q3 :=
  let sc := sumsCounts pts assignments k
  (List.range k).map (fun j =>
    if 0 < sc.2.getD j 0 then
      ((sc.1.getD j (0, 0, 0)).1 / (sc.2.getD j 0 : ℚ),
       (sc.1.getD j (0, 0, 0)).2.1 / (sc.2.getD j 0 : ℚ),
       (sc.1.getD j (0, 0, 0)).2.2 / (sc.2.getD j 0 : ℚ))
    else centroids.getD j (0, 0, 0))

/-- The k-means main loop: `max_iter` iterations of assign-then-update,
carrying the assignment of the last executed iteration. -/
noncomputable def kmeansLoop (pts : List Q3) (k : ℕ) :
    ℕ → List Q3 → List ℕ → List Q3 × List ℕ
  | 0, cs, asg => (cs, asg)
  | n + 1, cs, _ =>
      let asg := pts.map (fun c => kmeansAssignIdx c cs)
      kmeansLoop pts k n (update_centroids pts asg cs k) asg

/-- Gray padding loop of `kmeans_palette` for fewer samples than colors:
`while len(base) < k: v = int(255 * (len(base) + 1) / (k + 1));
base.append((v, v, v))`, unrolled over the count of entries still to
append (`len` is the current length of `base`). -/
def kmeansPadFrom (len k : ℕ) : ℕ → List Z3
  | 0 => []
  | cnt + 1 =>
      let v : ℤ := ((255 * (len + 1)) / (k + 1) : ℕ)
      (v, v, v) :: kmeansPadFrom (len + 1) k cnt

/-- `kmeans_palette` from reduce_color_png.py: pad with synthetic grays
when there are fewer samples than colors, otherwise run k-means seeded by
a fixed stride over the samples and round the final centroids back to
0..255. -/
noncomputable def kmeans_palette (pixels_rgb : List Z3) (k : ℕ)
    (max_iter : ℕ) : List Z3 :=
  if pixels_rgb = [] ∨ pixels_rgb.length < k then
    (pixels_rgb ++ kmeansPadFrom pixels_rgb.length k
      (k - pixels_rgb.length)).take k
  else
    let pts := pixels_rgb.map (fun p =>
      ((p.1 : ℚ) / 255, (p.2.1 : ℚ) / 255, (p.2.2 : ℚ) / 255))
    let step := max 1 (pts.length / k)
    let seeds := (((List.range pts.length).filter (fun i => i % step = 0)).map
      (fun i => pts.getD i (0, 0, 0))).take k
    let centroids := seeds ++
      List.replicate (k - seeds.length) ((0 : ℚ), (0 : ℚ), (0 : ℚ))
    let final := (kmeansLoop pts k max_iter centroids
      (List.replicate pts.length 0)).1
    final.map (fun c =>
      (roundPy (c.1 * 255), roundPy (c.2.1 * 255), roundPy (c.2.2 * 255)))

/-- The fixed gray filler list of `quantize_colors_kmeans`:
`[(0.2, 0.2, 0.2), (0.5, 0.5, 0.5), (0.8, 0.8, 0.8)]`. -/
def fixedGrays : List Q3 := [(1/5, 1/5, 1/5), (1/2, 1/2, 1/2), (4/5, 4/5, 4/5)]

/-- Padding loop of `quantize_colors_kmeans`:
`while len(face_colors) < k: face_colors += fixedGrays[:k - len(face_colors)]`. -/
def qpadLoop (fc : List Q3) (k : ℕ) : List Q3 :=
  if h : fc.length < k then qpadLoop (fc ++ fixedGrays.take (k - fc.length)) k
  else fc
termination_by k - fc.length
decreasing_by
  simp only [List.length_append, List.length_take, fixedGrays, List.length_cons,
    List.length_nil]
  omega

/-- `quantize_colors_kmeans` from export_4color_3mf.py: pad with the fixed
gray list when there are fewer face colors than clusters, otherwise run
the same k-means on the 0..1 colors and return (palette, assignments). -/
noncomputable def quantize_colors_kmeans (face_colors : List Q3) (k : ℕ)
    (max_iter : ℕ) : List Q3 × List ℕ :=
  if face_colors = [] ∨ face_colors.length < k then
    let fc := qpadLoop face_colors k
    (fc.take k, List.replicate fc.length 0)
  else
    let step := max 1 (face_colors.length / k)
    let seeds := (((List.range face_colors.length).filter
      (fun i => i % step = 0)).map
      (fun i => face_colors.getD i (0, 0, 0))).take k
    let centroids := seeds ++
      List.replicate (k - seeds.length) ((0 : ℚ), (0 : ℚ), (0 : ℚ))
    kmeansLoop face_colors k max_iter centroids
      (List.replicate face_colors.length 0)

/-- Comparing square roots of nonnegative rationals is comparing the
rationals. -/
theorem sqrt_lt_sqrt_iff_of_nonneg {a b : ℚ} (ha : 0 ≤ a) (hb : 0 ≤ b) :
    Real.sqrt (a : ℝ) < Real.sqrt (b : ℝ) ↔ a < b := by
  constructor
  · intro h
    by_contra hle
    push_neg at hle
    exact absurd (Real.sqrt_le_sqrt (by exact_mod_cast hle)) (not_le.mpr h)
  · intro h
    exact Real.sqrt_lt_sqrt (by exact_mod_cast ha) (by exact_mod_cast h)

/-- The real-valued scan of the source agrees with the squared-distance
scan whenever its running best distance is the square root of the
squared-distance scan's running best. -/
theorem assignScanR_eq_scanQ (c : Q3) :
    ∀ (rest : List Q3) (best : ℕ) (bdq : ℚ) (j : ℕ), 0 ≤ bdq →
      assignScanR c best (Real.sqrt (bdq : ℝ)) j rest
        = assignScanQ c best bdq j rest := by
  intro rest
  induction rest with
  | nil => intro best bdq j _; rfl
  | cons cj tl ih =>
      intro best bdq j hbdq
      have hcond : (distPy c cj < Real.sqrt (bdq : ℝ)) ↔ (sqdQ c cj < bdq) := by
        unfold distPy
        exact sqrt_lt_sqrt_iff_of_nonneg (sqdQ_nonneg c cj) hbdq
      by_cases h : sqdQ c cj < bdq
      · rw [assignScanR, assignScanQ, if_pos (hcond.mpr h), if_pos h]
        exact ih j (sqdQ c cj) (j + 1) (sqdQ_nonneg c cj)
      · rw [assignScanR, assignScanQ, if_neg (fun hc => h (hcond.mp hc)),
          if_neg h]
        exact ih best bdq (j + 1) hbdq

/-- The implementation's scan (with square roots) picks the same index as
the squared-distance scan. -/
theorem kmeansAssignIdx_eq_sq (c : Q3) (centroids : List Q3) :
    kmeansAssignIdx c centroids = sqAssignIdx c centroids := by
  match centroids with
  | [] => rfl
  | c0 :: rest =>
      show assignScanR c 0 (distPy c c0) 1 rest = assignScanQ c 0 (sqdQ c c0) 1 rest
      unfold distPy
      exact assignScanR_eq_scanQ c rest 0 (sqdQ c c0) 1 (sqdQ_nonneg c c0)

/-- Squared distance from sample `c` to the centroid at index `t`. -/
def sqdAt (c : Q3) (cs : List Q3) (t : ℕ) : ℚ := sqdQ c (cs.getD t (0, 0, 0))

/-- Invariant proof that the squared-distance scan computes the least
argmin: if the running best is the least argmin of the prefix scanned so
far, the final result is the least argmin of the whole list. -/
theorem assignScanQ_argmin (c : Q3) (cs : List Q3) :
    ∀ (rest : List Q3) (best j : ℕ),
      j + rest.length = cs.length → rest = cs.drop j → best < j →
      (∀ t < j, sqdAt c cs best ≤ sqdAt c cs t) →
      (∀ t < best, sqdAt c cs best < sqdAt c cs t) →
      assignScanQ c best (sqdAt c cs best) j rest < cs.length ∧
      (∀ t < cs.length,
        sqdAt c cs (assignScanQ c best (sqdAt c cs best) j rest) ≤ sqdAt c cs t) ∧
      (∀ t < assignScanQ c best (sqdAt c cs best) j rest,
        sqdAt c cs (assignScanQ c best (sqdAt c cs best) j rest) < sqdAt c cs t) := by
  intro rest
  induction rest with
  | nil =>
      intro best j hlen _ hbj hle hlt
      simp only [List.length_nil, Nat.add_zero] at hlen
      subst hlen
      exact ⟨hbj, fun t ht => hle t ht, hlt⟩
  | cons cj tl ih =>
      intro best j hlen hdrop hbj hle hlt
      have hjlt : j < cs.length := by
        simp only [List.length_cons] at hlen; omega
      obtain ⟨hcj, htl⟩ : cj = cs[j] ∧ tl = cs.drop (j + 1) := by
        have h1 := List.drop_eq_getElem_cons hjlt
        rw [← hdrop] at h1
        exact List.cons_eq_cons.mp h1
      have hcj' : sqdQ c cj = sqdAt c cs j := by
        rw [sqdAt, List.getD_eq_getElem _ _ hjlt, hcj]
      by_cases h : sqdQ c cj < sqdAt c cs best
      · simp only [assignScanQ, if_pos h]
        rw [hcj']
        have hlt' : sqdAt c cs j < sqdAt c cs best := hcj' ▸ h
        exact ih j (j + 1)
          (by simp only [List.length_cons] at hlen; omega)
          htl (by omega)
          (fun t ht => by
            rcases (by omega : t < j ∨ t = j) with h' | h'
            · exact (hlt'.trans_le (hle t h')).le
            · subst h'; exact le_refl _)
          (fun t ht => hlt'.trans_le (hle t ht))
      · simp only [assignScanQ, if_neg h]
        exact ih best (j + 1)
          (by simp only [List.length_cons] at hlen; omega)
          htl (by omega)
          (fun t ht => by
            rcases (by omega : t < j ∨ t = j) with h' | h'
            · exact hle t h'
            · subst h'; rw [← hcj']; exact not_lt.mp h)
          hlt


/-- C6: in every assignment step, the cluster index chosen by the
implementation's scan — which compares square-root distances with a strict
`<` while scanning centroids in index order — equals the squared-distance
scan's index, and that index is the least index minimizing the squared
Euclidean RGB distance: it is in range, its squared distance is a lower
bound over all centroids, and every strictly smaller index has a strictly
larger squared distance. -/
theorem C6_assignment_least_squared_argmin (c : Q3) (centroids : List Q3)
    (h : centroids ≠ []) :
    kmeansAssignIdx c centroids = sqAssignIdx c centroids ∧
    sqAssignIdx c centroids < centroids.length ∧
    (∀ t < centroids.length,
      sqdAt c centroids (sqAssignIdx c centroids) ≤ sqdAt c centroids t) ∧
    (∀ t < sqAssignIdx c centroids,
      sqdAt c centroids (sqAssignIdx c centroids) < sqdAt c centroids t) := by
  refine ⟨kmeansAssignIdx_eq_sq c centroids, ?_⟩
  match centroids, h with
  | c0 :: rest, _ =>
      have h0 : sqdQ c c0 = sqdAt c (c0 :: rest) 0 := by
        simp [sqdAt]
      have harg := assignScanQ_argmin c (c0 :: rest) rest 0 1
        (by simp [Nat.add_comm]) (by simp) one_pos
        (fun t ht => by
          have : t = 0 := by omega
          subst this; exact le_refl _)
        (fun t ht => by omega)
      have hrw : sqAssignIdx c (c0 :: rest)
          = assignScanQ c 0 (sqdAt c (c0 :: rest) 0) 1 rest := by
        rw [sqAssignIdx, h0]
      rw [hrw]
      exact harg

/-- Witness for C6 at a concrete sample and centroid pair: the sample
(0,0,0) against centroids [(1,0,0),(0,0,0)] is assigned to index 1 by both
scans. -/
theorem C6_witness :
    kmeansAssignIdx ((0:ℚ),(0:ℚ),(0:ℚ)) [(1,0,0),(0,0,0)]
      = sqAssignIdx ((0:ℚ),(0:ℚ),(0:ℚ)) [(1,0,0),(0,0,0)] ∧
    sqAssignIdx ((0:ℚ),(0:ℚ),(0:ℚ)) [(1,0,0),(0,0,0)] = 1 :=
  ⟨(C6_assignment_least_squared_argmin ((0:ℚ),(0:ℚ),(0:ℚ))
      [(1,0,0),(0,0,0)] (by decide)).1,
    by decide⟩

/-- Number of samples currently assigned to cluster `j`. -/
def assignedCount (assignments : List ℕ) (j : ℕ) : ℕ :=
  (assignments.filter (fun a => a = j)).length

/-- Componentwise sum of the samples currently assigned to cluster `j`. -/
def assignedSum (pts : List Q3) (assignments : List ℕ) (j : ℕ) : Q3 :=
  ((pts.zip assignments).filter (fun pj => pj.2 = j)).foldl
    (fun s pj => add3 s pj.1) (0, 0, 0)

/-- Enumerate-and-index equals zip when the index list covers the samples. -/
theorem enum_map_getD_eq_zip (pts : List Q3) (asg : List ℕ)
    (hlen : asg.length = pts.length) :
    pts.enum.map (fun ic => (ic.2, asg.getD ic.1 0)) = pts.zip asg := by
  apply List.ext_getElem
  · simp [hlen]
  · intro i h1 h2
    have hi : i < pts.length := by simpa using h1
    have hia : i < asg.length := by omega
    simp only [List.getElem_map, List.getElem_enum, List.getElem_zip]
    rw [List.getD_eq_getElem _ _ hia]

/-- `sumsCounts` (enumerate-and-index) coincides with the zipped
accumulation when the assignment list has one entry per sample. -/
theorem sumsCounts_eq_zip (pts : List Q3) (asg : List ℕ) (k : ℕ)
    (hlen : asg.length = pts.length) :
    sumsCounts pts asg k = zipSumsCounts (pts.zip asg) k := by
  rw [zipSumsCounts, ← enum_map_getD_eq_zip pts asg hlen, List.foldl_map]
  rfl

/-- The zipped accumulation preserves the lengths of both accumulators. -/
theorem zipSumsCounts_foldl_length :
    ∀ (L : List (Q3 × ℕ)) (s0 : List Q3) (c0 : List ℕ),
      ((L.foldl (fun sc pj =>
          (sc.1.set pj.2 (add3 (sc.1.getD pj.2 (0, 0, 0)) pj.1),
           sc.2.set pj.2 (sc.2.getD pj.2 0 + 1))) (s0, c0)).1.length = s0.length) ∧
      ((L.foldl (fun sc pj =>
          (sc.1.set pj.2 (add3 (sc.1.getD pj.2 (0, 0, 0)) pj.1),
           sc.2.set pj.2 (sc.2.getD pj.2 0 + 1))) (s0, c0)).2.length = c0.length) := by
  intro L
  induction L with
  | nil => intro s0 c0; exact ⟨rfl, rfl⟩
  | cons pj tl ih =>
      intro s0 c0
      simp only [List.foldl_cons]
      have := ih (s0.set pj.2 (add3 (s0.getD pj.2 (0, 0, 0)) pj.1))
        (c0.set pj.2 (c0.getD pj.2 0 + 1))
      simpa using this

/-- Reading `getD` through a `set` at a possibly different index. -/
theorem getD_set_ite (l : List ℕ) (i j : ℕ) (v : ℕ) (hj : j < l.length) :
    (l.set i v).getD j 0 = if i = j ∧ i < l.length then v else l.getD j 0 := by
  by_cases hij : i = j
  · subst hij
    simp only [true_and]
    rw [if_pos hj, List.getD_eq_getElem _ _ (by simpa using hj),
      List.getElem_set, if_pos rfl]
  · rw [if_neg (fun hc => hij hc.1), List.getD_eq_getElem _ _ (by simpa using hj),
      List.getD_eq_getElem _ _ hj, List.getElem_set, if_neg hij]

/-- Same for rational triples. -/
theorem getD_set_ite_q3 (l : List Q3) (i j : ℕ) (v : Q3) (hj : j < l.length) :
    (l.set i v).getD j (0, 0, 0)
      = if i = j ∧ i < l.length then v else l.getD j (0, 0, 0) := by
  by_cases hij : i = j
  · subst hij
    simp only [true_and]
    rw [if_pos hj, List.getD_eq_getElem _ _ (by simpa using hj),
      List.getElem_set, if_pos rfl]
  · rw [if_neg (fun hc => hij hc.1), List.getD_eq_getElem _ _ (by simpa using hj),
      List.getD_eq_getElem _ _ hj, List.getElem_set, if_neg hij]

/-- Count characterization of the fold: the final count at `j` is the
initial count plus the number of processed pairs assigned to `j`. -/
theorem counts_foldl :
    ∀ (L : List (Q3 × ℕ)) (s0 : List Q3) (c0 : List ℕ) (j : ℕ), j < c0.length →
      (L.foldl (fun sc pj =>
          (sc.1.set pj.2 (add3 (sc.1.getD pj.2 (0, 0, 0)) pj.1),
           sc.2.set pj.2 (sc.2.getD pj.2 0 + 1))) (s0, c0)).2.getD j 0
        = c0.getD j 0 + (L.filter (fun pj => pj.2 = j)).length := by
  intro L
  induction L with
  | nil => intro s0 c0 j _; simp
  | cons pj tl ih =>
      intro s0 c0 j hj
      simp only [List.foldl_cons]
      rw [ih _ _ j (by simpa using hj)]
      by_cases hpj : pj.2 = j
      · rw [getD_set_ite _ _ _ _ hj, if_pos ⟨hpj, hpj ▸ hj⟩, hpj]
        simp only [List.filter_cons, decide_eq_true_eq]
        rw [if_pos hpj]
        simp only [List.length_cons]
        omega
      · rw [getD_set_ite _ _ _ _ hj, if_neg (fun hc => hpj hc.1)]
        simp only [List.filter_cons, decide_eq_true_eq]
        rw [if_neg hpj]

/-- Sum characterization of the fold: the final sum at `j` is the fold of
the processed pairs assigned to `j` over the initial sum. -/
theorem sums_foldl :
    ∀ (L : List (Q3 × ℕ)) (s0 : List Q3) (c0 : List ℕ) (j : ℕ), j < s0.length →
      (L.foldl (fun sc pj =>
          (sc.1.set pj.2 (add3 (sc.1.getD pj.2 (0, 0, 0)) pj.1),
           sc.2.set pj.2 (sc.2.getD pj.2 0 + 1))) (s0, c0)).1.getD j (0, 0, 0)
        = (L.filter (fun pj => pj.2 = j)).foldl
            (fun s pj => add3 s pj.1) (s0.getD j (0, 0, 0)) := by
  intro L
  induction L with
  | nil => intro s0 c0 j _; simp
  | cons pj tl ih =>
      intro s0 c0 j hj
      simp only [List.foldl_cons]
      rw [ih _ _ j (by simpa using hj)]
      by_cases hpj : pj.2 = j
      · rw [getD_set_ite_q3 _ _ _ _ hj, if_pos ⟨hpj, hpj ▸ hj⟩]
        simp only [List.filter_cons, decide_eq_true_eq]
        rw [if_pos hpj, List.foldl_cons, hpj]
      · rw [getD_set_ite_q3 _ _ _ _ hj, if_neg (fun hc => hpj hc.1)]
        simp only [List.filter_cons, decide_eq_true_eq]
        rw [if_neg hpj]

/-- Counting assignments to `j` through the zip equals counting in the
assignment list itself. -/
theorem zip_filter_count_eq :
    ∀ (pts : List Q3) (asg : List ℕ), asg.length = pts.length → ∀ j,
      ((pts.zip asg).filter (fun pj => pj.2 = j)).length
        = (asg.filter (fun a => a = j)).length := by
  intro pts
  induction pts with
  | nil => intro asg hlen j; match asg with
           | [] => rfl
           | _ :: _ => simp at hlen
  | cons p tl ih =>
      intro asg hlen j
      match asg with
      | [] => simp at hlen
      | a :: atl =>
          simp only [List.zip_cons_cons, List.filter_cons, decide_eq_true_eq]
          by_cases ha : a = j
          · rw [if_pos ha, if_pos ha]
            simp only [List.length_cons]
            rw [ih atl (by simpa using hlen) j]
          · rw [if_neg ha, if_neg ha]
            exact ih atl (by simpa using hlen) j

/-- Reading an entry of a replicated list. -/
theorem getD_replicate_of_lt {α : Type} (x d : α) (k j : ℕ) (hj : j < k) :
    (List.replicate k x).getD j d = x := by
  rw [List.getD_eq_getElem _ _ (by simpa using hj)]
  exact List.getElem_replicate _ _

/-- Reading an entry of a `List.range`-built list. -/
theorem range_map_getD {α : Type} (f : ℕ → α) (k j : ℕ) (hj : j < k) (d : α) :
    ((List.range k).map f).getD j d = f j := by
  rw [List.getD_eq_getElem _ _ (by simpa using hj)]
  simp

/-- C8: in the centroid-update step, a cluster with zero currently assigned
samples keeps its previous centroid unchanged, and a cluster with at least
one assigned sample receives the arithmetic mean (componentwise sum
divided by the count) of its assigned samples. -/
theorem C8_update_keeps_empty_clusters (pts : List Q3) (asg : List ℕ)
    (centroids : List Q3) (k : ℕ) (hlen : asg.length = pts.length)
    (hval : ∀ a ∈ asg, a < k) :
    ∀ j < k,
      (assignedCount asg j = 0 →
        (update_centroids pts asg centroids k).getD j (0, 0, 0)
          = centroids.getD j (0, 0, 0)) ∧
      (0 < assignedCount asg j →
        (update_centroids pts asg centroids k).getD j (0, 0, 0)
          = ((assignedSum pts asg j).1 / (assignedCount asg j : ℚ),
             (assignedSum pts asg j).2.1 / (assignedCount asg j : ℚ),
             (assignedSum pts asg j).2.2 / (assignedCount asg j : ℚ))) := by
  intro j hj
  have hcount : (sumsCounts pts asg k).2.getD j 0 = assignedCount asg j := by
    rw [sumsCounts_eq_zip pts asg k hlen, zipSumsCounts,
      counts_foldl _ _ _ j (by simpa using hj)]
    rw [getD_replicate_of_lt _ _ _ _ hj]
    rw [zip_filter_count_eq pts asg hlen j, assignedCount, Nat.zero_add]
  have hsum : (sumsCounts pts asg k).1.getD j (0, 0, 0) = assignedSum pts asg j := by
    rw [sumsCounts_eq_zip pts asg k hlen, zipSumsCounts,
      sums_foldl _ _ _ j (by simpa using hj)]
    rw [getD_replicate_of_lt _ _ _ _ hj]
    rfl
  constructor
  · intro h0
    rw [update_centroids, range_map_getD _ k j hj]
    rw [hcount, h0]
    simp
  · intro h0
    rw [update_centroids, range_map_getD _ k j hj]
    rw [hcount, hsum, if_pos (by exact_mod_cast h0)]

/-- Witness for C8: three samples, assignments [0,0,2], k=3.  Cluster 1 is
empty and keeps its centroid (7,7,7); cluster 0 has two samples and gets
their mean. -/
theorem C8_witness :
    (update_centroids [(0,0,0),(1,1,1),(1,0,0)] [0,0,2]
        [(5,5,5),(7,7,7),(9,9,9)] 3).getD 1 (0,0,0) = ((7:ℚ),(7:ℚ),(7:ℚ)) ∧
    (update_centroids [(0,0,0),(1,1,1),(1,0,0)] [0,0,2]
        [(5,5,5),(7,7,7),(9,9,9)] 3).getD 0 (0,0,0)
      = ((1:ℚ)/2, (1:ℚ)/2, (1:ℚ)/2) := by
  have h := C8_update_keeps_empty_clusters [(0,0,0),(1,1,1),(1,0,0)] [0,0,2]
    [(5,5,5),(7,7,7),(9,9,9)] 3 (by decide) (by decide)
  constructor
  · rw [(h 1 (by decide)).1 (by decide)]
    decide
  · rw [(h 0 (by decide)).2 (by decide)]
    decide

/-- Length of the gray-pad list. -/
theorem kmeansPadFrom_length (k : ℕ) :
    ∀ (cnt len : ℕ), (kmeansPadFrom len k cnt).length = cnt := by
  intro cnt
  induction cnt with
  | zero => intro len; rfl
  | succ n ih => intro len; simp [kmeansPadFrom, ih]

/-- Entry `i` of the gray-pad list starting from current length `len`. -/
theorem kmeansPadFrom_getD (k : ℕ) :
    ∀ (cnt len i : ℕ), i < cnt →
      (kmeansPadFrom len k cnt).getD i (0, 0, 0)
        = (((((255 * (len + i + 1)) / (k + 1) : ℕ)) : ℤ),
           ((((255 * (len + i + 1)) / (k + 1) : ℕ)) : ℤ),
           ((((255 * (len + i + 1)) / (k + 1) : ℕ)) : ℤ)) := by
  intro cnt
  induction cnt with
  | zero => intro len i h; omega
  | succ n ih =>
      intro len i h
      match i with
      | 0 => simp [kmeansPadFrom]
      | i + 1 =>
          show (kmeansPadFrom (len + 1) k n).getD i (0, 0, 0) = _
          rw [ih (len + 1) i (by omega)]
          have harith : len + 1 + i + 1 = len + (i + 1) + 1 := by omega
          rw [harith]

/-- The cyclic gray sequence that `quantize_colors_kmeans`'s while loop
appends: entry `i` is `fixedGrays[i % 3]`. -/
def graySeq (m : ℕ) : List Q3 :=
  (List.range m).map (fun i => fixedGrays.getD (i % 3) (0, 0, 0))

/-- A short prefix of the cycle is a prefix of the fixed list. -/
theorem graySeq_small (m : ℕ) (hm : m ≤ 3) : graySeq m = fixedGrays.take m := by
  apply List.ext_getElem
  · simp [graySeq, fixedGrays]
    omega
  · intro i h1 h2
    simp only [graySeq, List.getElem_map, List.getElem_range, List.getElem_take]
    have hi : i < m := by simpa [graySeq] using h1
    have : i % 3 = i := Nat.mod_eq_of_lt (by omega)
    rw [this, List.getD_eq_getElem _ _ (by simp [fixedGrays]; omega)]

/-- Unrolling one full period of the cycle. -/
theorem graySeq_cycle (m : ℕ) (hm : 3 ≤ m) :
    fixedGrays ++ graySeq (m - 3) = graySeq m := by
  apply List.ext_getElem
  · simp [graySeq, fixedGrays]
    omega
  · intro i h1 h2
    have hi : i < m := by
      simpa [graySeq, fixedGrays] using (by simpa [graySeq] using h2 : i < m)
    by_cases h3 : i < 3
    · rw [List.getElem_append_left (by simp [fixedGrays]; omega)]
      simp only [graySeq, List.getElem_map, List.getElem_range]
      rw [Nat.mod_eq_of_lt h3, List.getD_eq_getElem _ _ (by simp [fixedGrays]; omega)]
    · rw [List.getElem_append_right (by simp [fixedGrays]; omega)]
      simp only [graySeq, List.getElem_map, List.getElem_range, fixedGrays]
      congr 1
      simp only [List.length_cons, List.length_nil]
      omega

/-- Characterization of the fixed-gray padding loop: it appends exactly
the cyclic gray sequence up to length `k`. -/
theorem qpadLoop_eq (m : ℕ) :
    ∀ (fc : List Q3) (k : ℕ), k - fc.length = m →
      qpadLoop fc k = fc ++ graySeq m := by
  induction m using Nat.strong_induction_on with
  | _ m ih =>
      intro fc k hm
      match m, hm with
      | 0, hm =>
          rw [qpadLoop, dif_neg (by omega)]
          simp [graySeq]
      | m + 1, hm =>
          have hlt : fc.length < k := by omega
          rw [qpadLoop, dif_pos hlt]
          by_cases hm3 : m + 1 ≤ 3
          · have htk : (fixedGrays.take (k - fc.length)).length = m + 1 := by
              simp only [List.length_take, fixedGrays, List.length_cons, List.length_nil]
              omega
            rw [ih 0 (by omega) _ k (by rw [List.length_append, htk]; omega)]
            rw [hm, graySeq_small (m + 1) hm3]
            simp [graySeq]
          · have htk : fixedGrays.take (k - fc.length) = fixedGrays := by
              apply List.take_of_length_le
              simp only [fixedGrays, List.length_cons, List.length_nil]
              omega
            rw [htk, ih (m + 1 - 3) (by omega) _ k
              (by simp only [List.length_append, fixedGrays, List.length_cons,
                    List.length_nil]; omega)]
            rw [List.append_assoc]
            congr 1
            have := graySeq_cycle (m + 1) (by omega)
            simpa using this

/-- C4 counterexample: `kmeans_palette` on the single sample (10,20,30)
with k = 2 pads with `int(255 * (len(base)+1) / (k+1)) = int(255*2/3) =
170`, not the claim's `int(255*(i+1)/(k+1)) = int(255*1/3) = 85` for pad
index i = 0. -/
theorem C4_counterexample :
    kmeans_palette [(10, 20, 30)] 2 30 = [(10, 20, 30), (170, 170, 170)] ∧
    ((170, 170, 170) : Z3) ≠ (85, 85, 85) := by
  constructor
  · rw [kmeans_palette, if_pos (Or.inr (by decide))]
    decide
  · decide

/-- C4 (amended): when `N < k`, `kmeans_palette` returns exactly `k`
entries whose first `N` are the input samples in order, and whose pad
entry with pad index `i` (0-based) is the synthetic gray with 8-bit value
`int(255 * (N + i + 1) / (k + 1))` — the formula uses the running length
`N + i`, not the pad index alone.  The exporter's
`quantize_colors_kmeans` instead pads by cyclically repeating the fixed
gray list [(0.2,0.2,0.2), (0.5,0.5,0.5), (0.8,0.8,0.8)]. -/
theorem C4_pad_formula (pixels : List Z3) (k it : ℕ) (h : pixels.length < k)
    (fc : List Q3) (it2 : ℕ) (hfc : fc.length < k) :
    (kmeans_palette pixels k it).length = k ∧
    (kmeans_palette pixels k it).take pixels.length = pixels ∧
    (∀ i < k - pixels.length,
      (kmeans_palette pixels k it).getD (pixels.length + i) (0, 0, 0)
        = (((((255 * (pixels.length + i + 1)) / (k + 1) : ℕ)) : ℤ),
           ((((255 * (pixels.length + i + 1)) / (k + 1) : ℕ)) : ℤ),
           ((((255 * (pixels.length + i + 1)) / (k + 1) : ℕ)) : ℤ))) ∧
    (quantize_colors_kmeans fc k it2).1 = fc ++ graySeq (k - fc.length) := by
  have hcond : pixels = [] ∨ pixels.length < k := Or.inr h
  have hplen : (kmeansPadFrom pixels.length k (k - pixels.length)).length
      = k - pixels.length := kmeansPadFrom_length k _ _
  have happlen : (pixels ++ kmeansPadFrom pixels.length k
      (k - pixels.length)).length = k := by
    rw [List.length_append, hplen]; omega
  refine ⟨?_, ?_, ?_, ?_⟩
  · rw [kmeans_palette, if_pos hcond]
    rw [List.length_take, happlen]
    omega
  · rw [kmeans_palette, if_pos hcond, List.take_take]
    rw [min_eq_left (by omega)]
    rw [List.take_append_of_le_length (le_refl _), List.take_length]
  · intro i hi
    rw [kmeans_palette, if_pos hcond]
    have hik : pixels.length + i < k := by omega
    rw [List.getD_eq_getElem _ _ (by rw [List.length_take, happlen]; omega)]
    rw [List.getElem_take]
    have hi2 : pixels.length + i < (pixels ++ kmeansPadFrom pixels.length k
        (k - pixels.length)).length := by omega
    rw [List.getElem_append_right (by omega)]
    have := kmeansPadFrom_getD k (k - pixels.length) pixels.length
      (pixels.length + i - pixels.length) (by omega)
    rw [List.getD_eq_getElem _ _ (by rw [hplen]; omega)] at this
    simp only [Nat.add_sub_cancel_left] at this ⊢
    rw [this]
  · rw [quantize_colors_kmeans, if_pos (Or.inr hfc)]
    have hq := qpadLoop_eq (k - fc.length) fc k rfl
    have hqlen : (qpadLoop fc k).length = k := by
      rw [hq, List.length_append]
      simp only [graySeq, List.length_map, List.length_range]
      omega
    show (qpadLoop fc k).take k = _
    rw [List.take_of_length_le (le_of_eq hqlen), hq]

/-- Witness for C4 (amended) at concrete inputs: one 8-bit sample with
k = 2 pads to length 2 keeping the sample first, with pad value 170; one
0..1 face color with k = 2 pads with the first fixed gray (0.2,0.2,0.2). -/
theorem C4_witness :
    (kmeans_palette [(10, 20, 30)] 2 30).length = 2 ∧
    (kmeans_palette [(10, 20, 30)] 2 30).take 1 = [(10, 20, 30)] ∧
    (kmeans_palette [(10, 20, 30)] 2 30).getD 1 (0, 0, 0) = (170, 170, 170) ∧
    (quantize_colors_kmeans [(3/10, 3/10, 3/10)] 2 7).1
      = [(3/10, 3/10, 3/10), (1/5, 1/5, 1/5)] := by
  have h := C4_pad_formula [(10, 20, 30)] 2 30 (by decide)
    [(3/10, 3/10, 3/10)] 7 (by decide)
  refine ⟨h.1, h.2.1, ?_, ?_⟩
  · have := h.2.2.1 0 (by decide)
    simpa using this
  · rw [h.2.2.2]
    decide

/-! ## Distinctness guard (export_4color_3mf.py `ensure_distinct_palette`) -/

/-- The fixed "bright" replacement palette (red, blue, green, yellow). -/
def bright4 : List Q3 :=
  [(9/10, 1/5, 1/5), (1/5, 1/2, 9/10), (1/5, 3/4, 3/10), (9/10, 17/20, 1/5)]

/-- The fixed "dark" replacement palette. -/
def dark4 : List Q3 :=
  [(9/10, 1/4, 1/4), (1/4, 1/2, 9/10), (1/4, 4/5, 7/20), (19/20, 9/10, 1/4)]

/-- Luma with the fixed 0.299/0.587/0.114 weights. -/
def lumaOf (c : Q3) : ℚ :=
  299/1000 * c.1 + 587/1000 * c.2.1 + 114/1000 * c.2.2

/-- The guard's preliminary padding: a palette shorter than `k` is extended
with copies of (0.2,0.2,0.2). -/
def guardPadded (palette : List Q3) (k : ℕ) : List Q3 :=
  if palette.length < k then
    palette ++ List.replicate (k - palette.length) (1/5, 1/5, 1/5)
  else palette

/-- Mean luma of a palette (`avg_lum = sum(lum) / len(lum)`). -/
def guardAvgLuma (pal : List Q3) : ℚ :=
  (pal.map lumaOf).sum / ((pal.map lumaOf).length : ℚ)

/-- Luma variance of a palette
(`variance = sum((x - avg_lum)**2 for x in lum) / max(len(lum), 1)`). -/
def guardVariance (pal : List Q3) : ℚ :=
  ((pal.map lumaOf).map (fun x => (x - guardAvgLuma pal) ^ 2)).sum
    / ((max (pal.map lumaOf).length 1 : ℕ) : ℚ)

/-- `ensure_distinct_palette` from export_4color_3mf.py: replace a
near-uniform bright (resp. dark) palette by the fixed bright (resp. dark)
4-entry set, otherwise pass the (padded) palette through truncated to `k`. -/
def ensure_distinct_palette (palette : List Q3) (k : ℕ) : List Q3 :=
  let pal := guardPadded palette k
  if guardVariance pal < 1/50 ∧ guardAvgLuma pal > 4/5 then bright4
  else if guardVariance pal < 1/50 ∧ guardAvgLuma pal < 1/4 then dark4
  else pal.take k

/-- C5 counterexample: two near-identical light colors with k = 2 trigger
the bright replacement, and the result is the whole fixed 4-entry bright
set — length 4, not truncated to k = 2 as the claim states. -/
theorem C5_counterexample :
    ensure_distinct_palette [(19/20, 19/20, 19/20), (19/20, 19/20, 19/20)] 2
      = bright4 ∧
    (ensure_distinct_palette [(19/20, 19/20, 19/20), (19/20, 19/20, 19/20)] 2).length
      ≠ 2 := by
  constructor
  · decide
  · decide

/-- C5 (amended): whenever the padded palette's luma variance is < 0.02
and its mean luma is > 0.8, the guard returns the fixed bright 4-entry set
as a whole — always 4 entries, with no truncation or cyclic repetition to
`k`; analogously the fixed dark set when variance < 0.02 and mean < 0.25. -/
theorem C5_guard_replaces_whole_palette (palette : List Q3) (k : ℕ)
    (hvar : guardVariance (guardPadded palette k) < 1/50) :
    (guardAvgLuma (guardPadded palette k) > 4/5 →
      ensure_distinct_palette palette k = bright4 ∧ bright4.length = 4) ∧
    (guardAvgLuma (guardPadded palette k) < 1/4 →
      ensure_distinct_palette palette k = dark4 ∧ dark4.length = 4) := by
  constructor
  · intro havg
    exact ⟨by rw [ensure_distinct_palette, if_pos ⟨hvar, havg⟩], rfl⟩
  · intro havg
    have hnb : ¬(guardVariance (guardPadded palette k) < 1/50 ∧
        guardAvgLuma (guardPadded palette k) > 4/5) := by
      rintro ⟨-, hgt⟩
      have : (1/4 : ℚ) < 4/5 := by norm_num
      linarith
    rw [ensure_distinct_palette, if_neg hnb, if_pos ⟨hvar, havg⟩]
    exact ⟨rfl, rfl⟩

/-- Witness for C5 (amended): the spec's own scenario — four near-identical
light colors (0.95,0.95,0.95) with k = 4 yield exactly the fixed bright
four-color set. -/
theorem C5_witness :
    ensure_distinct_palette
      [(19/20, 19/20, 19/20), (19/20, 19/20, 19/20),
       (19/20, 19/20, 19/20), (19/20, 19/20, 19/20)] 4 = bright4 :=
  ((C5_guard_replaces_whole_palette
      [(19/20, 19/20, 19/20), (19/20, 19/20, 19/20),
       (19/20, 19/20, 19/20), (19/20, 19/20, 19/20)] 4
      (by decide)).1 (by decide)).1

/-! ## Surface partitioner (export_4color_3mf.py `mesh_split_by_color` and
`apply_quantized_vertex_colors`) -/

/-- A sub-mesh: its own vertex position table and faces of local vertex
indices. -/
structure SubMesh where
  verts : List Q3
  faces : List (List ℕ)
deriving DecidableEq

/-- Color index of face `face_idx`:
`assignments[face_idx] if face_idx < len(assignments) else 0`. -/
def colorOfFace (assignments : List ℕ) (i : ℕ) : ℕ := assignments.getD i 0

/-- One `groups[color_idx].append(vert_indices)` on a `defaultdict`-style
association list: append to the existing entry, or add a new key at the
end (Python dict insertion order). -/
def addToGroups (g : List (ℕ × List (List ℕ))) (c : ℕ) (fv : List ℕ) :
    List (ℕ × List (List ℕ)) :=
  match g with
  | [] => [(c, [fv])]
  | (k0, fs) :: tl =>
      if k0 = c then (k0, fs ++ [fv]) :: tl
      else (k0, fs) :: addToGroups tl c fv

/-- Grouping of faces by color index in face order (the first loop of
`mesh_split_by_color`). -/
def groupsOf (faces : List (List ℕ)) (assignments : List ℕ) :
    List (ℕ × List (List ℕ)) :=
  faces.enum.foldl (fun g p => addToGroups g (colorOfFace assignments p.1) p.2) []

/-- `sorted(all_verts)` for the set of vertex indices referenced by a face
group: the sorted list of distinct global indices, modelled as a filter of
an initial segment of ℕ. -/
def sortedVertsOf (fvs : List (List ℕ)) : List ℕ :=
  (List.range ((fvs.flatten.foldr max 0) + 1)).filter (fun v => v ∈ fvs.flatten)

/-- Build one sub-mesh from a face group: copy only the referenced vertex
positions (in sorted global order) and rewrite each face through the
old-to-new index map (`old_to_new[v] = position of v in the sorted list`). -/
def buildSub (verts : List Q3) (fvs : List (List ℕ)) : SubMesh :=
  let sv := sortedVertsOf fvs
  { verts := sv.map (fun i => verts.getD i (0, 0, 0)),
    faces := fvs.map (fun fv => fv.map (fun v => sv.indexOf v)) }

/-- `mesh_split_by_color`: group faces by color, build one sub-mesh per
non-empty group, and tag it with `palette[color_idx]` — which raises
`IndexError` (modelled `none`) when a group's color index is out of the
palette's range. -/
def mesh_split_by_color (verts : List Q3) (faces : List (List ℕ))
    (assignments : List ℕ) (palette : List Q3) :
    Option (List (ℕ × SubMesh × Q3)) :=
  (groupsOf faces assignments).mapM (fun p =>
    (palette[p.1]?).map (fun col => (p.1, buildSub verts p.2, col)))

/-- `apply_quantized_vertex_colors`: without splitting, write the
quantized color of each face to all its corners
(`c = palette[color_idx] if color_idx < len(palette) else (0.5, 0.5, 0.5)`,
written as RGBA with alpha 1.0).  Returns the per-face corner colors. -/
def apply_quantized_vertex_colors (faces : List (List ℕ))
    (assignments : List ℕ) (palette : List Q3) : List (List Q4) :=
  faces.enum.map (fun p =>
    let ci := colorOfFace assignments p.1
    let c := if ci < palette.length then palette.getD ci (0, 0, 0)
             else (1/2, 1/2, 1/2)
    p.2.map (fun _ => (c.1, c.2.1, c.2.2, (1 : ℚ))))

/-- The faces assigned to cluster `c`, in their original encounter order
(specification side). -/
def facesOf (faces : List (List ℕ)) (assignments : List ℕ) (c : ℕ) :
    List (List ℕ) :=
  (faces.enum.filter (fun p => colorOfFace assignments p.1 = c)).map
    (fun p => p.2)

/-- C1 counterexample: one face whose assignment entry is 1 with a
1-entry palette (so the value is outside [0, k)).  The mesh-split path
fails at the `palette[color_idx]` lookup (`none`), and the vertex-color
write-back path emits the fallback gray (0.5, 0.5, 0.5, 1.0) — not the
result the claim predicts, namely the entry treated as cluster 0. -/
theorem C1_counterexample :
    mesh_split_by_color [(0,0,0), (1,0,0), (0,1,0)] [[0,1,2]] [1]
        [(1/10, 1/5, 3/10)] = none ∧
    apply_quantized_vertex_colors [[0,1,2]] [1] [(1/10, 1/5, 3/10)]
      ≠ apply_quantized_vertex_colors [[0,1,2]] [0] [(1/10, 1/5, 3/10)] := by
  constructor
  · decide
  · decide

/-- Lookup in the association list of groups (first matching key). -/
def lookupG (c : ℕ) : List (ℕ × List (List ℕ)) → Option (List (List ℕ))
  | [] => none
  | (k0, fs) :: tl => if k0 = c then some fs else lookupG c tl

/-- The faces carried by key `c` in a list of (color, face) pairs. -/
def facesFor (c : ℕ) (pairs : List (ℕ × List ℕ)) : List (List ℕ) :=
  (pairs.filter (fun p => p.1 = c)).map (fun p => p.2)

theorem lookupG_addToGroups (c c' : ℕ) (fv : List ℕ) :
    ∀ g, lookupG c (addToGroups g c' fv)
      = if c = c' then some ((lookupG c g).getD [] ++ [fv]) else lookupG c g := by
  intro g
  induction g with
  | nil =>
      by_cases h : c = c'
      · subst h
        show (if c = c then some [fv] else none) = _
        rw [if_pos rfl, if_pos rfl]
        rfl
      · have h' : ¬(c' = c) := fun hc => h hc.symm
        show (if c' = c then some [fv] else lookupG c []) = _
        rw [if_neg h', if_neg h]
  | cons kv tl ih =>
      obtain ⟨k0, fs⟩ := kv
      have hunf : lookupG c ((k0, fs) :: tl)
          = if k0 = c then some fs else lookupG c tl := rfl
      by_cases hk : k0 = c'
      · subst hk
        have hadd : addToGroups ((k0, fs) :: tl) k0 fv
            = (k0, fs ++ [fv]) :: tl := by
          show (if k0 = k0 then (k0, fs ++ [fv]) :: tl
            else (k0, fs) :: addToGroups tl k0 fv) = _
          rw [if_pos rfl]
        rw [hadd]
        by_cases hc : k0 = c
        · show (if k0 = c then some (fs ++ [fv]) else lookupG c tl) = _
          rw [if_pos hc, if_pos hc.symm, hunf, if_pos hc]
          rfl
        · show (if k0 = c then some (fs ++ [fv]) else lookupG c tl) = _
          rw [if_neg hc, if_neg (fun h => hc h.symm), hunf, if_neg hc]
      · have hadd : addToGroups ((k0, fs) :: tl) c' fv
            = (k0, fs) :: addToGroups tl c' fv := by
          show (if k0 = c' then (k0, fs ++ [fv]) :: tl
            else (k0, fs) :: addToGroups tl c' fv) = _
          rw [if_neg hk]
        rw [hadd]
        by_cases hc : k0 = c
        · have hcc : ¬(c = c') := fun h => hk ((hc.trans h))
          show (if k0 = c then some fs else lookupG c (addToGroups tl c' fv)) = _
          rw [if_pos hc, if_neg hcc, hunf, if_pos hc]
        · show (if k0 = c then some fs else lookupG c (addToGroups tl c' fv)) = _
          rw [if_neg hc, ih, hunf, if_neg hc]

theorem keys_addToGroups (c' : ℕ) (fv : List ℕ) :
    ∀ g, (addToGroups g c' fv).map Prod.fst
      = if c' ∈ g.map Prod.fst then g.map Prod.fst
        else g.map Prod.fst ++ [c'] := by
  intro g
  induction g with
  | nil => simp [addToGroups]
  | cons kv tl ih =>
      obtain ⟨k0, fs⟩ := kv
      by_cases hk : k0 = c'
      · subst hk
        have hadd : addToGroups ((k0, fs) :: tl) k0 fv
            = (k0, fs ++ [fv]) :: tl := by
          show (if k0 = k0 then (k0, fs ++ [fv]) :: tl
            else (k0, fs) :: addToGroups tl k0 fv) = _
          rw [if_pos rfl]
        rw [hadd, if_pos (by simp)]
        simp
      · have hadd : addToGroups ((k0, fs) :: tl) c' fv
            = (k0, fs) :: addToGroups tl c' fv := by
          show (if k0 = c' then (k0, fs ++ [fv]) :: tl
            else (k0, fs) :: addToGroups tl c' fv) = _
          rw [if_neg hk]
        rw [hadd]
        simp only [List.map_cons, ih]
        have hmem : (c' ∈ k0 :: tl.map Prod.fst) ↔ (c' ∈ tl.map Prod.fst) := by
          rw [List.mem_cons]
          constructor
          · rintro (h | h)
            · exact absurd h.symm hk
            · exact h
          · exact Or.inr
        by_cases hm : c' ∈ tl.map Prod.fst
        · rw [if_pos hm, if_pos (hmem.mpr hm)]
        · rw [if_neg hm, if_neg (fun hc => hm (hmem.mp hc))]
          rfl


/-- Splitting `facesFor` at the head pair. -/
theorem facesFor_cons (c : ℕ) (q : ℕ × List ℕ) (tl : List (ℕ × List ℕ)) :
    facesFor c (q :: tl)
      = if q.1 = c then q.2 :: facesFor c tl else facesFor c tl := by
  simp only [facesFor, List.filter_cons, decide_eq_true_eq]
  by_cases hq : q.1 = c
  · rw [if_pos hq, if_pos hq, List.map_cons]
  · rw [if_neg hq, if_neg hq]

/-- Folding pairs into the groups extends an existing key's face list by
exactly the faces of the pairs carrying that key. -/
theorem fold_lookupG_some :
    ∀ (pairs : List (ℕ × List ℕ)) (g : List (ℕ × List (List ℕ))) (c : ℕ)
      (fs : List (List ℕ)), lookupG c g = some fs →
      lookupG c (pairs.foldl (fun g q => addToGroups g q.1 q.2) g)
        = some (fs ++ facesFor c pairs) := by
  intro pairs
  induction pairs with
  | nil => intro g c fs h; simpa [facesFor] using h
  | cons q tl ih =>
      intro g c fs h
      rw [List.foldl_cons]
      by_cases hc : c = q.1
      · have h' : lookupG c (addToGroups g q.1 q.2) = some (fs ++ [q.2]) := by
          rw [lookupG_addToGroups, if_pos hc, h]
          rfl
        rw [ih _ _ _ h', facesFor_cons, if_pos hc.symm]
        simp
      · have h' : lookupG c (addToGroups g q.1 q.2) = some fs := by
          rw [lookupG_addToGroups, if_neg hc, h]
        rw [ih _ _ _ h', facesFor_cons, if_neg (fun hx => hc hx.symm)]

/-- Folding pairs into the groups creates a fresh key exactly when some
pair carries it, holding exactly the faces of the pairs with that key. -/
theorem fold_lookupG_none :
    ∀ (pairs : List (ℕ × List ℕ)) (g : List (ℕ × List (List ℕ))) (c : ℕ),
      lookupG c g = none →
      lookupG c (pairs.foldl (fun g q => addToGroups g q.1 q.2) g)
        = if c ∈ pairs.map Prod.fst then some (facesFor c pairs) else none := by
  intro pairs
  induction pairs with
  | nil => intro g c h; simpa using h
  | cons q tl ih =>
      intro g c h
      rw [List.foldl_cons]
      by_cases hc : c = q.1
      · have h' : lookupG c (addToGroups g q.1 q.2) = some [q.2] := by
          rw [lookupG_addToGroups, if_pos hc, h]
          rfl
        rw [fold_lookupG_some tl _ c [q.2] h', facesFor_cons, if_pos hc.symm]
        rw [if_pos (by simp [hc])]
        rfl
      · have h' : lookupG c (addToGroups g q.1 q.2) = none := by
          rw [lookupG_addToGroups, if_neg hc, h]
        rw [ih _ _ h']
        have hfc : facesFor c (q :: tl) = facesFor c tl := by
          rw [facesFor_cons, if_neg (fun hx => hc hx.symm)]
        rw [hfc]
        have hmem : (c ∈ (q :: tl).map Prod.fst) ↔ (c ∈ tl.map Prod.fst) := by
          rw [List.map_cons, List.mem_cons]
          constructor
          · rintro (h' | h')
            · exact absurd h' hc
            · exact h'
          · exact Or.inr
        by_cases hm : c ∈ tl.map Prod.fst
        · rw [if_pos hm, if_pos (hmem.mpr hm)]
        · rw [if_neg hm, if_neg (fun hx => hm (hmem.mp hx))]

/-- Keys present after the fold: those already present plus those carried
by some pair. -/
theorem fold_keys_mem :
    ∀ (pairs : List (ℕ × List ℕ)) (g : List (ℕ × List (List ℕ))) (c : ℕ),
      c ∈ (pairs.foldl (fun g q => addToGroups g q.1 q.2) g).map Prod.fst
        ↔ (c ∈ g.map Prod.fst ∨ c ∈ pairs.map Prod.fst) := by
  intro pairs
  induction pairs with
  | nil => intro g c; simp
  | cons q tl ih =>
      intro g c
      rw [List.foldl_cons, ih, keys_addToGroups]
      by_cases hm : q.1 ∈ g.map Prod.fst
      · rw [if_pos hm]
        simp only [List.map_cons, List.mem_cons]
        constructor
        · rintro (h | h)
          · exact Or.inl h
          · exact Or.inr (Or.inr h)
        · rintro (h | h | h)
          · exact Or.inl h
          · exact Or.inl (by rw [h]; exact hm)
          · exact Or.inr h
      · rw [if_neg hm]
        simp only [List.mem_append, List.mem_singleton, List.map_cons,
          List.mem_cons]
        tauto

/-- The fold keeps the key list duplicate-free. -/
theorem fold_keys_nodup :
    ∀ (pairs : List (ℕ × List ℕ)) (g : List (ℕ × List (List ℕ))),
      (g.map Prod.fst).Nodup →
      ((pairs.foldl (fun g q => addToGroups g q.1 q.2) g).map Prod.fst).Nodup := by
  intro pairs
  induction pairs with
  | nil => intro g h; exact h
  | cons q tl ih =>
      intro g h
      rw [List.foldl_cons]
      apply ih
      rw [keys_addToGroups]
      by_cases hm : q.1 ∈ g.map Prod.fst
      · rwa [if_pos hm]
      · rw [if_neg hm]
        exact List.Nodup.append h (List.nodup_singleton _)
          (fun a ha hb => hm (by rwa [List.mem_singleton.mp hb] at ha))

/-- In an association list with duplicate-free keys, membership determines
the lookup. -/
theorem mem_lookupG :
    ∀ (g : List (ℕ × List (List ℕ))) (c : ℕ) (fs : List (List ℕ)),
      (g.map Prod.fst).Nodup → (c, fs) ∈ g → lookupG c g = some fs := by
  intro g
  induction g with
  | nil => intro c fs _ h; exact absurd h (List.not_mem_nil _)
  | cons kv tl ih =>
      intro c fs hnd hmem
      obtain ⟨k0, fs0⟩ := kv
      have hnd' : k0 ∉ tl.map Prod.fst ∧ (tl.map Prod.fst).Nodup := by
        rw [List.map_cons, List.nodup_cons] at hnd
        exact hnd
      rcases List.mem_cons.mp hmem with h | h
      · show (if k0 = c then some fs0 else lookupG c tl) = some fs
        have h1 : c = k0 := congrArg Prod.fst h
        have h2 : fs = fs0 := congrArg Prod.snd h
        rw [if_pos h1.symm, h2]
      · have hk0 : k0 ≠ c := by
          intro hEq
          exact hnd'.1
            (List.mem_map.mpr ⟨(c, fs), h, show c = k0 from hEq.symm⟩)
        show (if k0 = c then some fs0 else lookupG c tl) = some fs
        rw [if_neg hk0]
        exact ih c fs hnd'.2 h

/-- The (color, face) pair list the grouping loop walks. -/
def pairsOf (faces : List (List ℕ)) (assignments : List ℕ) :
    List (ℕ × List ℕ) :=
  faces.enum.map (fun p => (colorOfFace assignments p.1, p.2))

theorem groupsOf_eq_fold (faces : List (List ℕ)) (assignments : List ℕ) :
    groupsOf faces assignments
      = (pairsOf faces assignments).foldl (fun g q => addToGroups g q.1 q.2) [] := by
  rw [pairsOf, List.foldl_map]
  rfl

theorem pairsOf_keys (faces : List (List ℕ)) (assignments : List ℕ) :
    (pairsOf faces assignments).map Prod.fst
      = (List.range faces.length).map (colorOfFace assignments) := by
  rw [pairsOf, List.map_map, show (Prod.fst ∘ fun p : ℕ × List ℕ =>
    (colorOfFace assignments p.1, p.2)) = (colorOfFace assignments) ∘ Prod.fst
    from rfl, ← List.map_map, List.enum_map_fst]

theorem mem_pairsOf_keys (faces : List (List ℕ)) (assignments : List ℕ)
    (c : ℕ) :
    c ∈ (pairsOf faces assignments).map Prod.fst
      ↔ ∃ i < faces.length, colorOfFace assignments i = c := by
  rw [pairsOf_keys]
  simp only [List.mem_map, List.mem_range]

theorem facesFor_pairsOf (faces : List (List ℕ)) (assignments : List ℕ)
    (c : ℕ) :
    facesFor c (pairsOf faces assignments) = facesOf faces assignments c := by
  rw [facesFor, pairsOf, List.filter_map, List.map_map]
  rfl

theorem groupsOf_keys_nodup (faces : List (List ℕ)) (assignments : List ℕ) :
    ((groupsOf faces assignments).map Prod.fst).Nodup := by
  rw [groupsOf_eq_fold]
  exact fold_keys_nodup _ [] List.nodup_nil

theorem groupsOf_mem_keys (faces : List (List ℕ)) (assignments : List ℕ)
    (c : ℕ) :
    c ∈ (groupsOf faces assignments).map Prod.fst
      ↔ ∃ i < faces.length, colorOfFace assignments i = c := by
  rw [groupsOf_eq_fold, fold_keys_mem, ← mem_pairsOf_keys faces assignments c]
  simp

/-- Every group in the grouping holds exactly the faces of its cluster, in
face order. -/
theorem groupsOf_mem_faces (faces : List (List ℕ)) (assignments : List ℕ)
    (c : ℕ) (fs : List (List ℕ)) (h : (c, fs) ∈ groupsOf faces assignments) :
    fs = facesOf faces assignments c := by
  have hl := mem_lookupG _ c fs (groupsOf_keys_nodup faces assignments) h
  have hck : c ∈ (pairsOf faces assignments).map Prod.fst := by
    have : c ∈ (groupsOf faces assignments).map Prod.fst :=
      List.mem_map.mpr ⟨(c, fs), h, rfl⟩
    rw [groupsOf_eq_fold, fold_keys_mem] at this
    simpa using this
  have hl2 : lookupG c (groupsOf faces assignments)
      = some (facesFor c (pairsOf faces assignments)) := by
    rw [groupsOf_eq_fold, fold_lookupG_none _ [] c rfl, if_pos hck]
  rw [hl] at hl2
  rw [Option.some_inj.mp hl2, facesFor_pairsOf]

/-- Upper bound used by the sorted-distinct-vertices construction. -/
theorem le_foldr_max : ∀ (l : List ℕ) (v : ℕ), v ∈ l → v ≤ l.foldr max 0 := by
  intro l
  induction l with
  | nil => intro v h; exact absurd h (List.not_mem_nil _)
  | cons a tl ih =>
      intro v h
      rcases List.mem_cons.mp h with h | h
      · subst h; exact le_max_left _ _
      · exact (ih v h).trans (le_max_right _ _)

theorem mem_sortedVertsOf (fvs : List (List ℕ)) (v : ℕ) :
    v ∈ sortedVertsOf fvs ↔ v ∈ fvs.flatten := by
  rw [sortedVertsOf, List.mem_filter]
  constructor
  · intro h
    simpa using h.2
  · intro h
    refine ⟨List.mem_range.mpr ?_, by simpa using h⟩
    exact Nat.lt_succ_of_le (le_foldr_max _ v h)

theorem sortedVertsOf_sorted (fvs : List (List ℕ)) :
    (sortedVertsOf fvs).Pairwise (· < ·) :=
  List.Pairwise.sublist (List.filter_sublist _) (List.pairwise_lt_range _)

theorem sortedVertsOf_nodup (fvs : List (List ℕ)) :
    (sortedVertsOf fvs).Nodup :=
  List.Nodup.filter _ (List.nodup_range _)

instance : Inhabited SubMesh := ⟨⟨[], []⟩⟩

/-- `mapM` over `Option` succeeds when every element maps to `some`, and
the result is the pointwise map. -/
theorem mapM_option_eq_map {α β : Type} [Inhabited β] (f : α → Option β) :
    ∀ (L : List α), (∀ x ∈ L, (f x).isSome) →
      L.mapM f = some (L.map (fun x => (f x).getD default)) := by
  intro L
  induction L with
  | nil => intro _; rfl
  | cons x tl ih =>
      intro h
      rw [List.mapM_cons]
      obtain ⟨y, hy⟩ := Option.isSome_iff_exists.mp (h x (List.mem_cons_self x tl))
      rw [hy, ih (fun a ha => h a (List.mem_cons_of_mem _ ha))]
      simp [hy]

/-- `mapM` over `Option` fails as soon as any element maps to `none`. -/
theorem mapM_option_none {α β : Type} (f : α → Option β) :
    ∀ (L : List α) (x : α), x ∈ L → f x = none → L.mapM f = none := by
  intro L
  induction L with
  | nil => intro x h _; exact absurd h (List.not_mem_nil _)
  | cons a tl ih =>
      intro x hmem hnone
      rw [List.mapM_cons]
      rcases List.mem_cons.mp hmem with h | h
      · subst h
        rw [hnone]
        rfl
      · rw [ih x h hnone]
        cases hfa : f a <;> rfl

/-- C7: with one in-range assignment entry per face, the partitioner
succeeds and yields exactly one sub-mesh per non-empty cluster (cluster
ids are duplicate-free and are exactly the values occurring in the
assignment); each sub-mesh is tagged with its cluster's palette color,
its vertex table holds exactly the positions of the distinct global
vertex indices referenced by the cluster's faces in ascending order, its
faces are the cluster's faces rewritten through that sorted old-to-new
map, every rewritten index is a valid local index, and every local index
is used by some face. -/
theorem C7_one_submesh_per_nonempty_cluster (verts : List Q3)
    (faces : List (List ℕ)) (assignments : List ℕ) (palette : List Q3)
    (hlen : assignments.length = faces.length)
    (hval : ∀ a ∈ assignments, a < palette.length) :
    ∃ subs : List (ℕ × SubMesh × Q3),
      mesh_split_by_color verts faces assignments palette = some subs ∧
      (subs.map (fun s => s.1)).Nodup ∧
      (∀ c, c ∈ subs.map (fun s => s.1) ↔ c ∈ assignments) ∧
      (∀ s ∈ subs, palette[s.1]? = some s.2.2 ∧
        ∃ sv : List ℕ,
          sv.Pairwise (· < ·) ∧
          (∀ v, v ∈ sv ↔ v ∈ (facesOf faces assignments s.1).flatten) ∧
          s.2.1.verts = sv.map (fun i => verts.getD i (0, 0, 0)) ∧
          s.2.1.faces = (facesOf faces assignments s.1).map
            (fun fv => fv.map (fun v => sv.indexOf v)) ∧
          (∀ fv ∈ s.2.1.faces, ∀ v ∈ fv, v < s.2.1.verts.length) ∧
          (∀ j < s.2.1.verts.length, ∃ fv ∈ s.2.1.faces, j ∈ fv)) := by
  have hkey_lt : ∀ p ∈ groupsOf faces assignments, p.1 < palette.length := by
    intro p hp
    have hk : p.1 ∈ (groupsOf faces assignments).map Prod.fst :=
      List.mem_map.mpr ⟨p, hp, rfl⟩
    obtain ⟨i, hi, hc⟩ := (groupsOf_mem_keys faces assignments p.1).mp hk
    have hia : i < assignments.length := by omega
    have : colorOfFace assignments i ∈ assignments := by
      rw [colorOfFace, List.getD_eq_getElem _ _ hia]
      exact List.getElem_mem _
    exact hc ▸ hval _ this
  have hIsSome : ∀ p ∈ groupsOf faces assignments,
      ((palette[p.1]?).map
        (fun col => (p.1, buildSub verts p.2, col))).isSome := by
    intro p hp
    have := hkey_lt p hp
    rw [List.getElem?_eq_getElem this]
    rfl
  refine ⟨(groupsOf faces assignments).map (fun p =>
      (((palette[p.1]?).map (fun col => (p.1, buildSub verts p.2, col))).getD
        default)), ?_, ?_, ?_, ?_⟩
  · exact mapM_option_eq_map _ _ hIsSome
  · have hfst : ((groupsOf faces assignments).map (fun p =>
        (((palette[p.1]?).map (fun col => (p.1, buildSub verts p.2, col))).getD
          default))).map (fun s => s.1)
        = (groupsOf faces assignments).map Prod.fst := by
      rw [List.map_map]
      apply List.map_congr_left
      intro p hp
      have h := hkey_lt p hp
      simp [List.getElem?_eq_getElem h]
    rw [hfst]
    exact groupsOf_keys_nodup faces assignments
  · intro c
    have hfst : ((groupsOf faces assignments).map (fun p =>
        (((palette[p.1]?).map (fun col => (p.1, buildSub verts p.2, col))).getD
          default))).map (fun s => s.1)
        = (groupsOf faces assignments).map Prod.fst := by
      rw [List.map_map]
      apply List.map_congr_left
      intro p hp
      have h := hkey_lt p hp
      simp [List.getElem?_eq_getElem h]
    rw [hfst, groupsOf_mem_keys]
    constructor
    · rintro ⟨i, hi, hc⟩
      have hia : i < assignments.length := by omega
      rw [colorOfFace, List.getD_eq_getElem _ _ hia] at hc
      exact hc ▸ List.getElem_mem _
    · intro hc
      obtain ⟨i, hi, hc⟩ := List.mem_iff_getElem.mp hc
      refine ⟨i, by omega, ?_⟩
      rw [colorOfFace, List.getD_eq_getElem _ _ hi]
      exact hc
  · intro s hs
    obtain ⟨p, hp, hps⟩ := List.mem_map.mp hs
    have hklt := hkey_lt p hp
    have hcol : palette[p.1]? = some palette[p.1] :=
      List.getElem?_eq_getElem hklt
    have hs_eq : s = (p.1, buildSub verts p.2, palette[p.1]) := by
      rw [← hps, hcol]
      rfl
    have hfs : p.2 = facesOf faces assignments p.1 :=
      groupsOf_mem_faces faces assignments p.1 p.2 hp
    subst hs_eq
    refine ⟨hcol, sortedVertsOf p.2, sortedVertsOf_sorted p.2, ?_, ?_, ?_, ?_, ?_⟩
    · intro v
      rw [mem_sortedVertsOf, hfs]
    · show (buildSub verts p.2).verts = _
      rw [buildSub]
    · show (buildSub verts p.2).faces = _
      rw [buildSub, hfs]
    · intro fv hfv v hv
      rw [buildSub] at hfv
      obtain ⟨fv0, hfv0, hfveq⟩ := List.mem_map.mp hfv
      rw [← hfveq] at hv
      obtain ⟨v0, hv0, hveq⟩ := List.mem_map.mp hv
      have hv0sv : v0 ∈ sortedVertsOf p.2 := by
        rw [mem_sortedVertsOf]
        exact List.mem_flatten.mpr ⟨fv0, hfv0, hv0⟩
      have : List.indexOf v0 (sortedVertsOf p.2) < (sortedVertsOf p.2).length :=
        List.indexOf_lt_length.mpr hv0sv
      rw [← hveq]
      show List.indexOf v0 (sortedVertsOf p.2) < (buildSub verts p.2).verts.length
      rw [buildSub]
      simpa using this
    · intro j hj
      have hjsv : j < (sortedVertsOf p.2).length := by
        rw [buildSub] at hj
        simpa using hj
      have hv0 : (sortedVertsOf p.2)[j] ∈ sortedVertsOf p.2 :=
        List.getElem_mem _
      have hfl : (sortedVertsOf p.2)[j] ∈ p.2.flatten :=
        (mem_sortedVertsOf p.2 _).mp hv0
      obtain ⟨fv0, hfv0, hvin⟩ := List.mem_flatten.mp hfl
      refine ⟨fv0.map (fun v => (sortedVertsOf p.2).indexOf v), ?_, ?_⟩
      · show _ ∈ (buildSub verts p.2).faces
        rw [buildSub]
        exact List.mem_map.mpr ⟨fv0, hfv0, rfl⟩
      · refine List.mem_map.mpr ⟨(sortedVertsOf p.2)[j], hvin, ?_⟩
        exact List.indexOf_getElem (sortedVertsOf_nodup p.2) j hjsv

/-- Witness for C7: the spec's scenario — 4 faces with assignment
[0,1,0,1] over a 2-entry palette yield exactly 2 sub-meshes. -/
theorem C7_witness :
    (mesh_split_by_color [(0,0,0), (1,0,0), (0,1,0), (0,0,1)]
        [[0,1,2], [1,2,3], [0,2,3], [0,1,3]] [0,1,0,1]
        [(1,0,0), (0,0,1)]).isSome = true ∧
    ((mesh_split_by_color [(0,0,0), (1,0,0), (0,1,0), (0,0,1)]
        [[0,1,2], [1,2,3], [0,2,3], [0,1,3]] [0,1,0,1]
        [(1,0,0), (0,0,1)]).getD []).length = 2 := by
  obtain ⟨subs, h1, -⟩ := C7_one_submesh_per_nonempty_cluster
    [(0,0,0), (1,0,0), (0,1,0), (0,0,1)]
    [[0,1,2], [1,2,3], [0,2,3], [0,1,3]] [0,1,0,1]
    [(1,0,0), (0,0,1)] (by decide) (by decide)
  constructor
  · rw [h1]
    rfl
  · decide

/-- Both assignment-reading paths depend on the assignment list only
through `colorOfFace`. -/
theorem colorOfFace_empty_replicate (n i : ℕ) :
    colorOfFace ([] : List ℕ) i = colorOfFace (List.replicate n 0) i := by
  rw [colorOfFace, colorOfFace, List.getD_nil]
  by_cases h : i < n
  · rw [getD_replicate_of_lt _ _ _ _ h]
  · rw [List.getD_eq_default _ _ (by simpa using not_lt.mp h)]

/-- C1 (amended): an assignment entry whose cluster value is ≥ k is NOT
clamped to 0 — it makes the mesh-split path fail at the `palette[...]`
lookup (`none`) and makes the vertex-color write-back path emit the
fallback gray (0.5, 0.5, 0.5, 1.0) instead of cluster 0's color.  What IS
treated as cluster 0 is a face whose index is beyond the end of the
assignment list: an empty assignment list behaves exactly like an all-zero
one, in both paths. -/
theorem C1_out_of_range_not_clamped (verts : List Q3)
    (faces : List (List ℕ)) (assignments : List ℕ) (palette : List Q3) :
    (∀ i, i < faces.length → palette.length ≤ colorOfFace assignments i →
      mesh_split_by_color verts faces assignments palette = none) ∧
    (∀ i, i < faces.length → palette.length ≤ colorOfFace assignments i →
      (apply_quantized_vertex_colors faces assignments palette).getD i []
        = (faces.getD i []).map
            (fun _ => ((1:ℚ)/2, (1:ℚ)/2, (1:ℚ)/2, (1:ℚ)))) ∧
    (mesh_split_by_color verts faces [] palette
      = mesh_split_by_color verts faces (List.replicate faces.length 0)
          palette) ∧
    (apply_quantized_vertex_colors faces [] palette
      = apply_quantized_vertex_colors faces (List.replicate faces.length 0)
          palette) := by
  refine ⟨?_, ?_, ?_, ?_⟩
  · intro i hi hge
    have hkey : colorOfFace assignments i
        ∈ (groupsOf faces assignments).map Prod.fst :=
      (groupsOf_mem_keys faces assignments _).mpr ⟨i, hi, rfl⟩
    obtain ⟨p, hp, hpc⟩ := List.mem_map.mp hkey
    apply mapM_option_none _ _ p hp
    rw [List.getElem?_eq_none (by rw [hpc]; exact hge)]
    rfl
  · intro i hi hge
    rw [apply_quantized_vertex_colors,
      List.getD_eq_getElem _ _ (by simpa using hi), List.getElem_map,
      List.getElem_enum]
    show (let c := if colorOfFace assignments i < palette.length then
        palette.getD (colorOfFace assignments i) (0, 0, 0)
      else (1/2, 1/2, 1/2)
      List.map (fun _ => (c.1, c.2.1, c.2.2, (1:ℚ))) faces[i]) = _
    rw [if_neg (not_lt.mpr hge)]
    rw [List.getD_eq_getElem _ _ hi]
  · rw [mesh_split_by_color, mesh_split_by_color, groupsOf, groupsOf,
      List.foldl_ext _ _ _ (fun g p hp => by
        rw [colorOfFace_empty_replicate faces.length p.1])]
  · rw [apply_quantized_vertex_colors, apply_quantized_vertex_colors]
    apply List.map_congr_left
    intro p hp
    rw [colorOfFace_empty_replicate faces.length p.1]

/-- Witness for C1 (amended) at the counterexample's concrete input: the
split fails and the vertex path writes gray. -/
theorem C1_witness :
    mesh_split_by_color [(0,0,0), (1,0,0), (0,1,0)] [[0,1,2]] [1]
        [(1/10, 1/5, 3/10)] = none ∧
    (apply_quantized_vertex_colors [[0,1,2]] [1]
        [(1/10, 1/5, 3/10)]).getD 0 []
      = [((1:ℚ)/2, (1:ℚ)/2, (1:ℚ)/2, (1:ℚ)),
         ((1:ℚ)/2, (1:ℚ)/2, (1:ℚ)/2, (1:ℚ)),
         ((1:ℚ)/2, (1:ℚ)/2, (1:ℚ)/2, (1:ℚ))] := by
  have h := C1_out_of_range_not_clamped [(0,0,0), (1,0,0), (0,1,0)]
    [[0,1,2]] [1] [(1/10, 1/5, 3/10)]
  refine ⟨h.1 0 (by decide) (by decide), ?_⟩
  rw [h.2.1 0 (by decide) (by decide)]
  decide

/-! ## Pixel pipeline core (reduce_color_png.py `reduce_color_png`, pure
part of lines 153–190, and the output assembly of
reduce_color_png_blender.py `REDUCE_COLOR_OT_png.execute`) -/

/-- The RGB 2D grid built from the flat RGBA pixel list
(`rgb_2d[y][x] = pixels[y*width+x][:3]`). -/
def rgb2dOf (pixels : List Z4) (width height : ℕ) : List (List Z3) :=
  (List.range height).map (fun y => (List.range width).map (fun x =>
    let p := pixels.getD (y * width + x) (0, 0, 0, 0)
    (p.1, p.2.1, p.2.2.1)))

/-- The alpha 2D grid (`alpha_2d[y][x] = pixels[y*width+x][3]`). -/
def alpha2dOf (pixels : List Z4) (width height : ℕ) : List (List ℤ) :=
  (List.range height).map (fun y => (List.range width).map (fun x =>
    (pixels.getD (y * width + x) (0, 0, 0, 0)).2.2.2))

/-- Palette computation of `reduce_color_png`: collect the RGB of pixels
with alpha ≥ 128 (falling back to all pixels), subsample by stride when
there are more than `max_pixels_for_palette`, then run `kmeans_palette`. -/
noncomputable def paletteOf (pixels : List Z4)
    (num_colors max_pixels kiters : ℕ) : List Z3 :=
  let rgb0 := (pixels.filter (fun p => 128 ≤ p.2.2.2)).map
    (fun p => (p.1, p.2.1, p.2.2.1))
  let rgb1 := if rgb0 = [] then
      pixels.map (fun p => (p.1, p.2.1, p.2.2.1))
    else rgb0
  let rgb2 := if max_pixels < rgb1.length then
      let step := rgb1.length / max_pixels
      ((List.range rgb1.length).filter (fun i => i % step = 0)).map
        (fun i => rgb1.getD i (0, 0, 0))
    else rgb1
  kmeans_palette rgb2 num_colors kiters

/-- The pure pixel-pipeline core of `reduce_color_png`: compute the
palette, reduce the RGB grid (with or without dithering), and reassemble
flat RGBA output pixels with `alpha_2d[y][x]` as each pixel's alpha. -/
noncomputable def reduce_color_core (pixels : List Z4)
    (width height num_colors : ℕ) (use_dither : Bool)
    (max_pixels kiters : ℕ) : List Z4 :=
  let palette := paletteOf pixels num_colors max_pixels kiters
  let out_rgb_2d := if use_dither then
      floyd_steinberg_dither (rgb2dOf pixels width height) palette width height
    else direct_nearest_map (rgb2dOf pixels width height) palette width height
  (List.range height).flatMap (fun y => (List.range width).map (fun x =>
    let c := (out_rgb_2d.getD y []).getD x (0, 0, 0)
    (c.1, c.2.1, c.2.2, ((alpha2dOf pixels width height).getD y []).getD x 0)))

/-- Output assembly of the Blender operator (`out_flat`): RGB from the
reduced grid and alpha from `alpha_2d`, all divided by 255. -/
def blender_out_flat (out_rgb_2d : List (List Z3)) (alpha_2d : List (List ℤ))
    (width height : ℕ) : List Q4 :=
  (List.range height).flatMap (fun y => (List.range width).map (fun x =>
    let c := (out_rgb_2d.getD y []).getD x (0, 0, 0)
    ((c.1 : ℚ) / 255, (c.2.1 : ℚ) / 255, (c.2.2 : ℚ) / 255,
      (((alpha_2d.getD y []).getD x 0 : ℤ) : ℚ) / 255)))

/-- Reading entry `y*width+x` of a row-major flattened grid. -/
theorem flatMap_grid_getD {α : Type} (f : ℕ → ℕ → α) (width : ℕ) :
    ∀ (height y x : ℕ), y < height → x < width → ∀ (d : α),
      (((List.range height).flatMap (fun y => (List.range width).map
        (fun x => f y x)))).getD (y * width + x) d = f y x := by
  intro height
  induction height with
  | zero => intro y x hy _ _; omega
  | succ h ih =>
      intro y x hy hx d
      rw [List.range_succ, List.flatMap_append]
      have hlen1 : ((List.range h).flatMap (fun y => (List.range width).map
          (fun x => f y x))).length = h * width := by
        rw [List.length_flatMap]
        simp only [Function.comp_def, List.length_map, List.length_range]
        rw [List.map_const', List.sum_replicate, smul_eq_mul, List.length_range]
      by_cases hyh : y < h
      · have hidx : y * width + x < h * width := by
          calc y * width + x < y * width + width := by omega
          _ = (y + 1) * width := by ring
          _ ≤ h * width := Nat.mul_le_mul_right _ (by omega)
        rw [List.getD_append _ _ _ _ (by rw [hlen1]; exact hidx)]
        exact ih y x hyh hx d
      · have hyeq : y = h := by omega
        subst hyeq
        rw [List.getD_eq_getElem?_getD, List.getElem?_append_right
          (by rw [hlen1]; exact Nat.le_add_right _ _), hlen1]
        have : y * width + x - y * width = x := by omega
        rw [this]
        simp only [List.flatMap_cons, List.flatMap_nil, List.append_nil]
        rw [← List.getD_eq_getElem?_getD, range_map_getD _ _ _ hx]

/-- C9: the opacity of every output pixel of the pixel pipeline is exactly
the opacity of the corresponding input pixel, with and without dithering;
the color reduction neither reads nor modifies alpha.  Likewise the
Blender operator's output buffer takes each pixel's alpha directly from
`alpha_2d` (scaled back from 8-bit to 0..1). -/
theorem C9_alpha_passthrough (pixels : List Z4)
    (width height num_colors : ℕ) (use_dither : Bool)
    (max_pixels kiters : ℕ) (hnum : 1 ≤ num_colors)
    (y x : ℕ) (hy : y < height) (hx : x < width) :
    ((reduce_color_core pixels width height num_colors use_dither
        max_pixels kiters).getD (y * width + x) (0, 0, 0, 0)).2.2.2
      = (pixels.getD (y * width + x) (0, 0, 0, 0)).2.2.2 ∧
    (∀ (out_rgb_2d : List (List Z3)) (alpha_2d : List (List ℤ)),
      ((blender_out_flat out_rgb_2d alpha_2d width height).getD
          (y * width + x) (0, 0, 0, 0)).2.2.2
        = (((alpha_2d.getD y []).getD x 0 : ℤ) : ℚ) / 255) := by
  constructor
  · rw [reduce_color_core]
    rw [flatMap_grid_getD _ width height y x hy hx]
    show ((alpha2dOf pixels width height).getD y []).getD x 0 = _
    rw [alpha2dOf, grid_getD _ width height y x hy hx]
  · intro out_rgb_2d alpha_2d
    rw [blender_out_flat]
    rw [flatMap_grid_getD _ width height y x hy hx]

/-- Witness for C9 at a concrete 1×1 image with alpha 77. -/
theorem C9_witness :
    ((reduce_color_core [(10, 20, 30, 77)] 1 1 2 true 500000 3).getD 0
        (0, 0, 0, 0)).2.2.2 = 77 ∧
    ((blender_out_flat [[(9, 9, 9)]] [[(77 : ℤ)]] 1 1).getD 0
        (0, 0, 0, 0)).2.2.2 = (77 : ℚ) / 255 := by
  have h := C9_alpha_passthrough [(10, 20, 30, 77)] 1 1 2 true 500000 3
    (by decide) 0 0 (by decide) (by decide)
  exact ⟨h.1, h.2 [[(9, 9, 9)]] [[(77 : ℤ)]]⟩

/-- Witness for C2: a concrete 1×2 image and 2-entry palette; the output
pixels of both modes are palette entries, and dimensions are preserved. -/
theorem C2_witness :
    ((floyd_steinberg_dither [[(5,5,5),(200,200,200)]] [(0,0,0),(255,255,255)]
        2 1).length = 1 ∧
      ((floyd_steinberg_dither [[(5,5,5),(200,200,200)]] [(0,0,0),(255,255,255)]
          2 1).getD 0 []).getD 0 (0,0,0) ∈ [((0:ℤ),(0:ℤ),(0:ℤ)),(255,255,255)]) ∧
    ((direct_nearest_map [[(5,5,5),(200,200,200)]] [(0,0,0),(255,255,255)]
        2 1).getD 0 []).getD 1 (0,0,0) ∈ [((0:ℤ),(0:ℤ),(0:ℤ)),(255,255,255)] := by
  have h := C2_output_pixels_in_palette [[(5,5,5),(200,200,200)]]
    [(0,0,0),(255,255,255)] 2 1 (by decide) (by decide)
  exact ⟨⟨h.1.1, h.2.2.1 0 one_pos 0 two_pos⟩, h.2.2.2 0 one_pos 1 one_lt_two⟩
